import Mathlib

/-!
# Verification of the `crux_geo_app` geospatial core

A shallow embedding, in Lean 4, of the geospatial data model of the
`crux_geo_app` repository (`src/shared/src/geo_app/`), together with proofs
of the specified properties.

Conventions of the embedding:
* `f64` values are idealised as exact numbers: `ℚ` for the discrete
  data-structure layer (lengths, accuracies, where only ordered-field
  arithmetic occurs) and `ℝ` for the spherical-geometry layer (where square
  roots and inverse trigonometric functions occur).  `f64::total_cmp` on
  non-NaN values is the usual linear order.
* `chrono::DateTime<Utc>` timestamps are idealised as `ℤ` (a linear order
  with decidable comparison, which is all the code uses).
* Fallible operations (Rust panics) are modelled with `Option`: `none` is a
  panic, `some s` a successful result state.
* Behaviour of external library functions (`std`, `imbl`, `jord`, `rstar`)
  that the repository calls is modelled from those libraries' documented
  contracts; each such definition carries a comment saying what it models.
-/

namespace GeoApp

/-! ## Ordered-insert and the `imbl` binary search

`Way.accuracies` is an `imbl::Vector<Length>` kept sorted by
`f64::total_cmp` on the metre value.  We model it as a `List ℚ`.
-/

/-- Models `imbl::Vector::insert_ord_by` with the ascending comparator
`|x, y| x.as_default_unit().total_cmp(&y.as_default_unit())` used throughout
`Way` (geo_types.rs lines 288, 300, 327): insert the element at a position
that keeps an ascending list ascending.  `imbl` picks the position with a
binary search; on a sorted list every sortedness-preserving position for a
value yields the *same* resulting list, so the simple recursive insert below
is extensionally the library's behaviour on the sorted caches it is applied
to. -/
def insertOrd (a : ℚ) : List ℚ → List ℚ
  | [] => [a]
  | x :: xs => if a ≤ x then a :: x :: xs else x :: insertOrd a xs

/-- Insertion sort built from `insertOrd`; models the `sort_by(total_cmp)`
call in `Way::compute_accuracies` (geo_types.rs line 354): the result is the
ascending reordering of the input, and for lists of plain values any sort
produces this same list. -/
def sortQ (l : List ℚ) : List ℚ := l.foldr insertOrd []

/-- The comparison `f64::total_cmp` on (finite) accuracy values, as the
order on `ℚ`. -/
def cmpQ (x y : ℚ) : Ordering := compare x y

/-- Loop of `imbl::Vector::binary_search_by` (the `im`/`imbl` implementation:
narrow `[base, base+size)` by halving; move `base` to `mid` unless the
comparator answers `Greater`; stop when `size ≤ 1`).  Modelled from the
library because `Way::update` (geo_types.rs lines 315-319) calls it with a
comparator whose argument order makes the outcome depend on the exact
search path.  The first argument is recursion fuel: each iteration shrinks
`size` by at least one, so fuel `size` (the list length at the call site)
makes the recursion structural without changing the computed value. -/
def imblLoop (f : ℚ → Ordering) (c : List ℚ) : ℕ → ℕ → ℕ → ℕ
  | 0, base, _size => base
  | fuel + 1, base, size =>
    if size ≤ 1 then base
    else
      let half := size / 2
      let mid := base + half
      let base' := if f (c.getD mid 0) = Ordering.gt then base else mid
      imblLoop f c fuel base' (size - half)

/-- `imbl::Vector::binary_search_by`: `Except.ok i` is Rust's `Ok(i)`
(element found at `i`), `Except.error i` is `Err(i)` (insertion point `i`).
Modelled from the `im`/`imbl` source. -/
def imblBinarySearchBy (f : ℚ → Ordering) (c : List ℚ) : Except ℕ ℕ :=
  if c.length = 0 then .error 0
  else
    let base := imblLoop f c c.length 0 c.length
    match f (c.getD base 0) with
    | .eq => .ok base
    | .gt => .error base
    | .lt => .error (base + 1)

/-! ## The `Way<T>` structure (geo_types.rs lines 242-381)

`Way<T>` is generic over `T: Coords`; the embedding is parametrised by the
node type `α` together with the two functions the code uses on nodes:
`dist a b`, the geodesic distance `PLANET.distance(a.nvector(), b.nvector())`
between two nodes, and `acc a`, the node's `accuracy()`.  The
`OnceLock<imbl::Vector<Length>>` accuracy cache is an `Option (List ℚ)`
(`none` = not yet initialised). -/
structure Way (α : Type) where
  nodes : List α
  length : ℚ
  accCache : Option (List ℚ)
  deriving Repr, DecidableEq

variable {α : Type}

/-- `Way::new` (geo_types.rs line 261). -/
def Way.new : Way α := ⟨[], 0, none⟩

/-- The loop of `Way::recompute_length` (geo_types.rs lines 338-344): the sum
of `dist` over consecutive pairs. -/
def pathLength (dist : α → α → ℚ) : List α → ℚ
  | a :: b :: rest => dist a b + pathLength dist (b :: rest)
  | _ => 0

/-- `Way::compute_accuracies` (geo_types.rs lines 348-356): collect the
accuracies present on the nodes and sort them. -/
def computeAccuracies (acc : α → Option ℚ) (nodes : List α) : List ℚ :=
  sortQ (nodes.filterMap acc)

/-- `Way::accuracies` (geo_types.rs lines 362-364): the cached list if the
`OnceLock` is initialised, otherwise the freshly computed one
(`get_or_init`). -/
def Way.accuracies (acc : α → Option ℚ) (w : Way α) : List ℚ :=
  w.accCache.getD (computeAccuracies acc w.nodes)

/-- Materialisation of the lazy cache: the state of the `OnceLock` after a
first call to `Way::accuracies` (`get_or_init` stores the computed list). -/
def Way.forceAcc (acc : α → Option ℚ) (w : Way α) : Way α :=
  { w with accCache := some (w.accuracies acc) }

/-- `Way::append` (geo_types.rs lines 280-294): extend `length` by the
distance from the previous last node, insert the new accuracy (if any) into
the cache when the cache is initialised, push the node. -/
def Way.append (dist : α → α → ℚ) (acc : α → Option ℚ) (w : Way α) (pos : α) :
    Way α where
  nodes := w.nodes ++ [pos]
  length :=
    match w.nodes.getLast? with
    | some last => w.length + dist last pos
    | none => w.length
  accCache :=
    match w.accCache, acc pos with
    | some c, some a => some (insertOrd a c)
    | some c, none => some c
    | none, _ => none

/-- `Way::insert` (geo_types.rs lines 297-307): ordered-insert the new
accuracy into an initialised cache, insert the node at index `i`
(`Vec::insert` panics when `i > len`, hence `none` there), then recompute
the length from scratch. -/
def Way.insert (dist : α → α → ℚ) (acc : α → Option ℚ) (w : Way α) (i : ℕ)
    (pos : α) : Option (Way α) :=
  if i ≤ w.nodes.length then
    let nodes' := w.nodes.insertIdx i pos
    some { nodes := nodes'
           length := pathLength dist nodes'
           accCache :=
             match w.accCache, acc pos with
             | some c, some a => some (insertOrd a c)
             | some c, none => some c
             | none, _ => none }
  else none

/-- The removal step of `Way::update` (geo_types.rs lines 313-323): when the
old node had an accuracy, search the cache with
`binary_search_by(|other| old_accuracy.total_cmp(&other.as_default_unit()))`
— note the argument order of that comparator — and remove the found index;
an `Err` result is the `panic!` (`none` here). -/
def removeAcc (oldAcc : Option ℚ) (c : List ℚ) : Option (List ℚ) :=
  match oldAcc with
  | none => some c
  | some oldA =>
    match imblBinarySearchBy (fun other => cmpQ oldA other) c with
    | .ok idx => some (c.eraseIdx idx)
    | .error _ => none

/-- The whole cache adjustment of `Way::update` (geo_types.rs lines
312-331): nothing happens when the `OnceLock` is uninitialised; otherwise
remove the old accuracy (possibly panicking) and ordered-insert the new
one. -/
def updateCache (oldAcc newAcc : Option ℚ) :
    Option (List ℚ) → Option (Option (List ℚ))
  | none => some none
  | some c =>
    (removeAcc oldAcc c).map fun c2 =>
      some (match newAcc with
            | some a => insertOrd a c2
            | none => c2)

/-- `Way::update` (geo_types.rs lines 310-335): adjust the accuracy cache,
replace the node at `i`, recompute the length.  Out-of-bounds `i` is the
`self.nodes[i]` panic; a miss in the removal search is the explicit
`panic!`. -/
def Way.update (dist : α → α → ℚ) (acc : α → Option ℚ) (w : Way α) (i : ℕ)
    (pos : α) : Option (Way α) :=
  if h : i < w.nodes.length then
    match updateCache (acc (w.nodes.get ⟨i, h⟩)) (acc pos) w.accCache with
    | none => none
    | some cc =>
      let nodes' := w.nodes.set i pos
      some { nodes := nodes', length := pathLength dist nodes', accCache := cc }
  else none

/-- The `Way` states reachable from `Way::new` by the mutators
(`append`, `insert`, `update`) and by reads that materialise the lazy
accuracy cache. -/
inductive Way.Reachable (dist : α → α → ℚ) (acc : α → Option ℚ) :
    Way α → Prop
  | new : Way.Reachable dist acc Way.new
  | append {w p} : Way.Reachable dist acc w →
      Way.Reachable dist acc (w.append dist acc p)
  | insert {w i p w'} : Way.Reachable dist acc w →
      w.insert dist acc i p = some w' → Way.Reachable dist acc w'
  | update {w i p w'} : Way.Reachable dist acc w →
      w.update dist acc i p = some w' → Way.Reachable dist acc w'
  | force {w} : Way.Reachable dist acc w →
      Way.Reachable dist acc (w.forceAcc acc)

/-- `Way::median_accuracy` (geo_types.rs lines 367-380): no accuracies →
`None`; odd count → the element at index `len / 2`; even count → the mean of
the elements at `len / 2` and `len / 2 - 1`. -/
def Way.medianAccuracy (acc : α → Option ℚ) (w : Way α) : Option ℚ :=
  if (w.accuracies acc).length > 0 then
    if (w.accuracies acc).length % 2 = 1 then
      some ((w.accuracies acc).getD ((w.accuracies acc).length / 2) 0)
    else
      some (((w.accuracies acc).getD ((w.accuracies acc).length / 2) 0 +
             (w.accuracies acc).getD ((w.accuracies acc).length / 2 - 1) 0) / 2)
  else none

/-! ## `PosWithTimestamp` and `RecordedWay` (geo_types.rs lines 56-94 and
383-434) -/

/-- `PosWithTimestamp`: a `Position` (coordinates in decimal degrees,
optional altitude / accuracy / altitude-accuracy) plus a UTC capture
instant, idealised as `ℤ`. -/
structure PosT where
  timestamp : ℤ
  lat : ℚ
  long : ℚ
  altitude : Option ℚ
  accuracy : Option ℚ
  altitudeAccuracy : Option ℚ
  deriving Repr, DecidableEq

/-- `Coords::accuracy` for `PosWithTimestamp` (geo_types.rs lines 72-79). -/
def accT : PosT → Option ℚ := fun p => p.accuracy

/-- Models `<[T]>::binary_search_by_key` from the Rust standard library by
its documented contract **on slices sorted by the key** (the only inputs the
repository feeds it): `Ok i` when the key is found at index `i`, `Err i`
with `i` the insertion point otherwise.  On a sorted slice the contract
determines the result uniquely: `i` is the number of leading elements with
key below the target (`lowerBoundIdx`). -/
def lowerBoundIdx (key : α → ℤ) (l : List α) (t : ℤ) : ℕ :=
  (l.takeWhile fun x => decide (key x < t)).length

/-- The result of `binary_search_by_key` on a sorted slice, per its
documented contract (see `lowerBoundIdx`). -/
def stdBinarySearchByKey (key : α → ℤ) (l : List α) (t : ℤ) : Except ℕ ℕ :=
  match l[lowerBoundIdx key l t]? with
  | some x =>
    if key x = t then .ok (lowerBoundIdx key l t)
    else .error (lowerBoundIdx key l t)
  | none => .error (lowerBoundIdx key l t)

/-- `RecordedWay` (geo_types.rs lines 385-387): a `Way<PosWithTimestamp>`. -/
structure RecordedWay where
  way : Way PosT
  deriving Repr, DecidableEq

/-- `RecordedWay::new` (geo_types.rs line 390). -/
def RecordedWay.new : RecordedWay := ⟨Way.new⟩

/-- `RecordedWay::add` (geo_types.rs lines 399-423): append when the new
timestamp is strictly beyond the last node (or the way is empty); otherwise
binary-search by timestamp and `insert` on a miss, `update` (replace) on a
hit. -/
def RecordedWay.add (dist : PosT → PosT → ℚ) (r : RecordedWay) (p : PosT) :
    Option RecordedWay :=
  if (match r.way.nodes.getLast? with
      | some last => decide (last.timestamp < p.timestamp)
      | none => true) then
    some ⟨r.way.append dist accT p⟩
  else
    match stdBinarySearchByKey (fun x => x.timestamp) r.way.nodes p.timestamp with
    | .error i => (r.way.insert dist accT i p).map (⟨·⟩)
    | .ok i => (r.way.update dist accT i p).map (⟨·⟩)

/-- `RecordedWay::get_since` (geo_types.rs lines 426-433): the suffix from
the binary-search position for the timestamp (`unwrap_or_else(|i| i)` uses
the insertion point on a miss). -/
def RecordedWay.getSince (r : RecordedWay) (t : ℤ) : List PosT :=
  let i := match stdBinarySearchByKey (fun x => x.timestamp) r.way.nodes t with
           | .ok i => i
           | .error i => i
  r.way.nodes.drop i

/-- The `RecordedWay` states reachable from `RecordedWay::new` by `add`
calls alone (claim C3's setting).  A step is a **successful** `add`. -/
inductive RecordedWay.Reachable (dist : PosT → PosT → ℚ) :
    RecordedWay → Prop
  | new : RecordedWay.Reachable dist RecordedWay.new
  | add {r p r'} : RecordedWay.Reachable dist r →
      RecordedWay.add dist r p = some r' → RecordedWay.Reachable dist r'

/-! ## The saved-position registry (mod.rs lines 120-152 and 261-286)

The relevant slice of `InnerModel` for `Event::SaveCurrPos`: the current
position (`Option<GeoResult<GeoInfo>>`, with the error payload collapsed to
`Unit`), the spatial index (`RTree<SavedPos>`, modelled by its content
list), the name map (`HashMap<CompactString, SavedPos>`, modelled as an
association list whose `insert` prepends) and the user message signal. -/

/-- The fields of `Position` (geo_types.rs lines 19-25). -/
structure PositionM where
  lat : ℚ
  long : ℚ
  altitude : Option ℚ
  accuracy : Option ℚ
  altitudeAccuracy : Option ℚ
  deriving Repr, DecidableEq

/-- The fields of `crux_geolocation::GeoInfo` that `SavedPos::new` reads. -/
structure GeoInfoM where
  lat : ℚ
  long : ℚ
  altitude : Option ℚ
  accuracy : Option ℚ
  altitudeAccuracy : Option ℚ
  timestamp : ℤ
  deriving Repr, DecidableEq

/-- `Position::from(&GeoInfo)` (geo_types.rs lines 27-36). -/
def PositionM.ofGeo (g : GeoInfoM) : PositionM :=
  ⟨g.lat, g.long, g.altitude, g.accuracy, g.altitudeAccuracy⟩

/-- `SavedPos` (geo_types.rs lines 97-102). -/
structure SavedPosM where
  name : String
  pos : PositionM
  timestamp : ℤ
  deriving Repr, DecidableEq

/-- `SavedPos::new` (geo_types.rs lines 104-112). -/
def SavedPosM.new (name : String) (g : GeoInfoM) : SavedPosM :=
  ⟨name, PositionM.ofGeo g, g.timestamp⟩

/-- The slice of `InnerModel` that `Event::SaveCurrPos` touches. -/
structure ModelState where
  currPos : Option (Except Unit GeoInfoM)
  savedPositions : List SavedPosM
  savedPositionsNames : List (String × SavedPosM)
  msg : String
  deriving Repr

/-- The `Event::SaveCurrPos(name)` arm of `update` (mod.rs lines 261-286):
a duplicate name or an unknown current position only sets the message;
otherwise the new `SavedPos` is inserted into **both** the spatial index and
the name map. -/
def saveCurrPos (s : ModelState) (name : String) : ModelState :=
  if (s.savedPositionsNames.lookup name).isSome then
    { s with msg := "Error: There is already a position named " ++ name }
  else
    match s.currPos with
    | some (.ok geo) =>
      { s with
        savedPositions := SavedPosM.new name geo :: s.savedPositions
        savedPositionsNames :=
          (name, SavedPosM.new name geo) :: s.savedPositionsNames }
    | _ => { s with msg := "Error: The current position is not known." }

/-! ## The recorded-ways view (view_types.rs lines 337-369, mod.rs lines
355-358) -/

/-- The observable shape of `ViewRecordedWay::new(name, way, saveable)`. -/
structure ViewRecordedWayM where
  name : String
  way : RecordedWay
  saveable : Bool
  deriving Repr, DecidableEq

/-- The `way_since_app_start` derived signal (view_types.rs lines 340-349):
the "Since app start" way is rendered on its own, not in the saved list. -/
def waySinceAppStartView (allPositions : Option RecordedWay) :
    Option ViewRecordedWayM :=
  allPositions.map fun w => ⟨"Since app start", w, false⟩

/-- The `recorded_ways` derived signal (view_types.rs lines 355-369): map
the saved ways to view entries and `take(n.saturating_sub(1))` of them
(`ℕ` subtraction is saturating). -/
def recordedWaysView (saved : List (String × RecordedWay)) (n : ℕ) :
    List ViewRecordedWayM :=
  (saved.map fun nw => ⟨nw.1, nw.2, true⟩).take (n - 1)

/-- The recorded-ways slice of the view model (view_types.rs). -/
structure ViewModelM where
  waySinceAppStart : Option ViewRecordedWayM
  recordedWays : List ViewRecordedWayM
  deriving Repr, DecidableEq

/-- The state feeding the two recorded-way view signals. -/
structure RecViewState where
  allPositions : Option RecordedWay
  recordedWays : List (String × RecordedWay)
  viewNRecordedWays : ℕ
  deriving Repr, DecidableEq

/-- The `Event::ViewNRecordedWays(n)` arm of `update` (mod.rs lines
355-358): store `n` in the `view_n_recorded_ways` signal. -/
def handleViewNRecordedWays (st : RecViewState) (n : ℕ) : RecViewState :=
  { st with viewNRecordedWays := n }

/-- The recorded-ways part of `ViewModel::make` read off a state. -/
def viewOf (st : RecViewState) : ViewModelM :=
  ⟨waySinceAppStartView st.allPositions,
   recordedWaysView st.recordedWays st.viewNRecordedWays⟩

/-! ## Fixtures used by witnesses and counterexamples -/

/-- Strictly increasing timestamps along a node list (the `RecordedWay`
ordering invariant). -/
def TsSorted (l : List PosT) : Prop :=
  l.Pairwise fun a b => a.timestamp < b.timestamp

/-- A degenerate distance function for witnesses of distance-independent
claims. -/
def dist0 : PosT → PosT → ℚ := fun _ _ => 0

/-- A distance function on bare rationals for the length-invariant
witness. -/
def distQ : ℚ → ℚ → ℚ := fun x y => |x - y|

/-- An accuracy function on bare rationals for the length-invariant
witness. -/
def accQ : ℚ → Option ℚ := fun _ => none

/-- A timestamped node; `mkPos ts a` has timestamp `ts` and accuracy `a`. -/
def mkPos (ts : ℤ) (a : Option ℚ) : PosT :=
  ⟨ts, 0, 0, none, a, none⟩

/-- The way of claim C5's failing input: three nodes with accuracies
1, 2 and 3 metres, with the accuracy cache materialised by a read. -/
def wayBug : Way PosT :=
  Way.forceAcc accT
    (((Way.new.append dist0 accT (mkPos 1 (some 1))).append dist0 accT
        (mkPos 2 (some 2))).append dist0 accT (mkPos 3 (some 3)))

/-- The `RecordedWay` with timestamps `[1, 3, 5, 7]` of scenario E. -/
def way1357 : RecordedWay :=
  ⟨⟨[mkPos 1 none, mkPos 3 none, mkPos 5 none, mkPos 7 none], 0, none⟩⟩

/-- The state of scenario B after adding `t = 10`. -/
def wayScenB1 : RecordedWay :=
  ⟨⟨[mkPos 10 (some 1)], 0, none⟩⟩

/-- The state of scenario B after adding `t = 10` then `t = 5`.  (The
length field is the unevaluated path length, so that the state is
definitionally the one `add` produces.) -/
def wayScenB : RecordedWay :=
  ⟨⟨[mkPos 5 (some 2), mkPos 10 (some 1)],
    pathLength dist0 [mkPos 5 (some 2), mkPos 10 (some 1)], none⟩⟩

/-- The way of scenario C: five nodes with accuracies `[3, 1, 4, 1, 5]`. -/
def wayScenC : Way PosT :=
  ⟨[mkPos 1 (some 3), mkPos 2 (some 1), mkPos 3 (some 4), mkPos 4 (some 1),
    mkPos 5 (some 5)], 0, none⟩

/-- The geolocation sample of scenario A: coordinates `(59.3, 18.1)`. -/
def geoHome : GeoInfoM :=
  ⟨593 / 10, 181 / 10, none, none, none, 0⟩

/-- Scenario A's state before the first save: a known current position and
an empty registry. -/
def stateHome0 : ModelState :=
  ⟨some (.ok geoHome), [], [], ""⟩

/-- Scenario A's state after saving the position under the name `home`. -/
def stateHome1 : ModelState :=
  saveCurrPos stateHome0 "home"


/-! ## Spherical geometry (geo_types.rs lines 138-240)

`jord::Vec3` is a 3-vector of `f64`; here components are exact reals.
`NVector`s are unit normal vectors to the sphere surface.  Definitions that
mirror functions of the external `jord` library (cross/dot products, vector
norm, normalisation, great-circle distance, cross-track distance) are
modelled from that library's documented geometry, as noted on each. -/

/-- A 3-vector (`jord::Vec3`) with exact real components. -/
@[ext]
structure Vec3 where
  x : ℝ
  y : ℝ
  z : ℝ

/-- `Vec3::dot_prod`. -/
def Vec3.dot (a b : Vec3) : ℝ := a.x * b.x + a.y * b.y + a.z * b.z

/-- `Vec3::cross_prod`. -/
def Vec3.cross (a b : Vec3) : Vec3 :=
  ⟨a.y * b.z - a.z * b.y, a.z * b.x - a.x * b.z, a.x * b.y - a.y * b.x⟩

/-- Scalar multiple of a vector. -/
def Vec3.smul (r : ℝ) (a : Vec3) : Vec3 := ⟨r * a.x, r * a.y, r * a.z⟩

/-- Vector sum. -/
def Vec3.add (a b : Vec3) : Vec3 := ⟨a.x + b.x, a.y + b.y, a.z + b.z⟩

/-- `Vec3::norm`: the Euclidean length. -/
noncomputable def Vec3.norm (a : Vec3) : ℝ := Real.sqrt (a.dot a)

/-- `Vec3::unit`: the vector scaled to unit length (`v / ‖v‖`); on the zero
vector Lean's division by zero makes this the zero vector. -/
noncomputable def Vec3.unit (a : Vec3) : Vec3 :=
  ⟨a.x / a.norm, a.y / a.norm, a.z / a.norm⟩

/-- `Line` (geo_types.rs line 171): a minor arc held by its two endpoint
unit normal vectors (`MinorArc::start/end`; `end` is a Lean keyword, hence
`endp`). -/
structure LineM where
  start : Vec3
  endp : Vec3

/-- `MinorArc::normal()` (external `jord`): the unit vector normal to the
arc's plane, the normalised cross product of the endpoints. -/
noncomputable def LineM.normal (l : LineM) : Vec3 := (l.start.cross l.endp).unit

open scoped Classical in
/-- `Line::extrema` (geo_types.rs lines 183-204).  `ms`/`me` are the dot
products of `m = n × direction` with the endpoints; `(min_p, max_p)` — the
source's `if start_height < end_height {(s, e)} else {(e, s)}` — is written
`(min ..., max ...)`, which is the same pair.  `eq_zero` comes from the
repository's `numbers` module, which is not under `src/`; modelled from the
spec's words ("numerically zero within an epsilon"), which in exact real
arithmetic is equality with zero — and then `ms * me ≥ 0` already subsumes
both `eq_zero` disjuncts. -/
noncomputable def LineM.extrema (l : LineM) (direction : Vec3) : ℝ × ℝ :=
  if (l.normal.cross direction).dot l.start *
        (l.normal.cross direction).dot l.endp ≥ 0 ∨
      (l.normal.cross direction).dot l.start = 0 ∨
      (l.normal.cross direction).dot l.endp = 0 then
    (min (direction.dot l.start) (direction.dot l.endp),
     max (direction.dot l.start) (direction.dot l.endp))
  else if (l.normal.cross direction).dot l.start < 0 then
    (min (direction.dot l.start) (direction.dot l.endp),
     (direction.cross l.normal).norm)
  else
    (-(direction.cross l.normal).norm,
     max (direction.dot l.start) (direction.dot l.endp))

/-- Membership in the minor arc between two endpoint unit vectors: the
points of the unit sphere that are nonnegative combinations of the
endpoints.  For non-degenerate endpoints this is exactly the minor arc (the
slerp points `(sin((1-t)α)·s + sin(tα)·e)/sin α`, `t ∈ [0,1]`, and nothing
else); for coincident endpoints it is the single endpoint, and for
antipodal endpoints the two endpoints (the arc itself being ill-defined
there). -/
def onMinorArc (s e p : Vec3) : Prop :=
  ∃ u v : ℝ, 0 ≤ u ∧ 0 ≤ v ∧ p = (Vec3.smul u s).add (Vec3.smul v e) ∧
    p.dot p = 1

/-- A latitude/longitude pair, in radians (the degree-vs-radian scale of
the source does not affect any stated property). -/
structure LatLongM where
  lat : ℝ
  long : ℝ

/-- `LatLong::to_nvector` (external `jord`): the unit normal vector of the
surface point. -/
noncomputable def latLongToNVector (ll : LatLongM) : Vec3 :=
  ⟨Real.cos ll.lat * Real.cos ll.long,
   Real.cos ll.lat * Real.sin ll.long,
   Real.sin ll.lat⟩

/-- `rtree_point` (geo_types.rs lines 139-142): the unit normal vector's
components are the point handed to the spatial index. -/
noncomputable def rtreePoint (ll : LatLongM) : Vec3 := latLongToNVector ll

/-- `SavedPos::distance_2` (geo_types.rs lines 161-167): squared Euclidean
(chord) distance between the projected points. -/
def distance2 (me point : Vec3) : ℝ :=
  (me.x - point.x) * (me.x - point.x) + (me.y - point.y) * (me.y - point.y) +
    (me.z - point.z) * (me.z - point.z)

/-- The radius of `Sphere::EARTH` (external `jord`), in metres. -/
noncomputable def earthRadius : ℝ := 6371008.7714

/-- `Sphere::distance` (external `jord`): great-circle (geodesic) distance,
the radius times the angle between the unit normal vectors. -/
noncomputable def geodesicDistance (p q : Vec3) : ℝ :=
  earthRadius * Real.arccos (p.dot q)

/-- `Sphere::cross_track_distance` (external `jord`): the signed distance
from a point to a great circle, the radius times (angle between the great
circle's normal and the point, minus a quarter circle).
`GreatCircle::new(a, b)` has normal `unit (a × b)`. -/
noncomputable def crossTrackDistance (p : Vec3) (gcStart gcEnd : Vec3) : ℝ :=
  earthRadius * (Real.arccos ((gcStart.cross gcEnd).unit.dot p) - Real.pi / 2)

/-- `Line::distance_2` (geo_types.rs lines 217-240): the minimum of the
cross-track distance to the arc's great circle and the geodesic distances
to the two endpoints, each divided by the planet radius and squared. -/
noncomputable def lineDistance2 (l : LineM) (p : Vec3) : ℝ :=
  min ((crossTrackDistance p l.start l.endp / earthRadius) ^ 2)
    (min ((geodesicDistance p l.start / earthRadius) ^ 2)
         ((geodesicDistance p l.endp / earthRadius) ^ 2))
/-- A quarter-circle arc in the equator plane, for the extrema witness. -/
def lineXY : LineM := ⟨⟨1, 0, 0⟩, ⟨0, 1, 0⟩⟩

/-- The `z`-axis direction, for the extrema witness. -/
def dirZ : Vec3 := ⟨0, 0, 1⟩

lemma pathLength_append_last (dist : α → α → ℚ) (l : List α) (p : α) :
    pathLength dist (l ++ [p]) =
      pathLength dist l +
        (match l.getLast? with
         | some last => dist last p
         | none => 0) := by
  induction l with
  | nil => simp [pathLength]
  | cons a l ih =>
    cases l with
    | nil => simp [pathLength]
    | cons b l' =>
      simp only [List.cons_append] at ih ⊢
      simp only [pathLength, ih, List.getLast?_cons_cons]
      ring

lemma length_eq_of_insert {dist : α → α → ℚ} {acc : α → Option ℚ}
    {w w' : Way α} {i : ℕ} {p : α} (h : w.insert dist acc i p = some w') :
    w'.length = pathLength dist w'.nodes := by
  unfold Way.insert at h
  split at h
  · cases h; rfl
  · cases h

lemma length_eq_of_update {dist : α → α → ℚ} {acc : α → Option ℚ}
    {w w' : Way α} {i : ℕ} {p : α} (h : w.update dist acc i p = some w') :
    w'.length = pathLength dist w'.nodes := by
  unfold Way.update at h
  split at h
  · split at h
    · cases h
    · cases h
      rfl
  · cases h

lemma drop_length_takeWhile (p : α → Bool) (l : List α) :
    l.drop (l.takeWhile p).length = l.dropWhile p := by
  induction l with
  | nil => simp
  | cons a l ih =>
    by_cases h : p a <;> simp [List.takeWhile_cons, List.dropWhile_cons, h, ih]

lemma insertIdx_length_takeWhile (p : α → Bool) (l : List α) (x : α) :
    l.insertIdx (l.takeWhile p).length x = l.takeWhile p ++ x :: l.dropWhile p := by
  induction l with
  | nil => simp
  | cons a l ih =>
    by_cases h : p a <;> simp [List.takeWhile_cons, List.dropWhile_cons, h, ih]

lemma set_length_takeWhile {p : α → Bool} {l rest : List α} {y : α} (x : α)
    (h : l.dropWhile p = y :: rest) :
    l.set (l.takeWhile p).length x = l.takeWhile p ++ x :: rest := by
  induction l with
  | nil => simp at h
  | cons a l ih =>
    by_cases ha : p a
    · simp only [List.dropWhile_cons, ha, if_true] at h
      simp [List.takeWhile_cons, ha, ih h]
    · simp only [List.dropWhile_cons, ha, if_false] at h
      cases h
      simp [List.takeWhile_cons, ha]

lemma getElem?_length_takeWhile (p : α → Bool) (l : List α) :
    l[(l.takeWhile p).length]? = (l.dropWhile p).head? := by
  rw [← drop_length_takeWhile p l, List.head?_eq_getElem?, List.getElem?_drop]
  norm_num

lemma takeWhile_length_le (p : α → Bool) (l : List α) :
    (l.takeWhile p).length ≤ l.length :=
  (List.takeWhile_sublist p).length_le

lemma takeWhile_length_eq {p : α → Bool} {l : List α} {j : ℕ}
    (hj : ∀ i, i < j → ∃ y, l[i]? = some y ∧ p y)
    (hx : ∀ y, l[j]? = some y → ¬ p y) :
    (l.takeWhile p).length = j := by
  induction l generalizing j with
  | nil =>
    cases j with
    | zero => simp
    | succ j => obtain ⟨y, hy, _⟩ := hj 0 (Nat.succ_pos j); simp at hy
  | cons a l ih =>
    cases j with
    | zero =>
      have := hx a (by simp)
      simp [List.takeWhile_cons, this]
    | succ j =>
      obtain ⟨y, hy, hpy⟩ := hj 0 (Nat.succ_pos j)
      simp only [List.getElem?_cons_zero, Option.some.injEq] at hy
      subst hy
      rw [List.takeWhile_cons, if_pos hpy]
      simp only [List.length_cons, Nat.succ_inj]
      exact ih (fun i hi => by simpa using hj (i + 1) (by omega))
        (fun y hy => hx y (by simpa using hy))

lemma sorted_getElem?_lt {l : List PosT} (hs : TsSorted l) {i j : ℕ}
    {x y : PosT} (hij : i < j) (hx : l[i]? = some x) (hy : l[j]? = some y) :
    x.timestamp < y.timestamp := by
  obtain ⟨hi, hx⟩ := List.getElem?_eq_some_iff.mp hx
  obtain ⟨hj, hy⟩ := List.getElem?_eq_some_iff.mp hy
  subst hx hy
  exact List.pairwise_iff_getElem.mp hs i j hi hj hij

lemma sorted_mem_dropWhile_ge {t : ℤ} {l : List PosT} (hs : TsSorted l) :
    ∀ x ∈ l.dropWhile (fun n => decide (n.timestamp < t)), t ≤ x.timestamp := by
  induction l with
  | nil => simp
  | cons a l ih =>
    obtain ⟨ha, hl⟩ := List.pairwise_cons.mp hs
    by_cases h : a.timestamp < t
    · simpa [List.dropWhile_cons, h] using ih hl
    · intro x hx
      rw [List.dropWhile_cons, if_neg (by simpa using h)] at hx
      rcases List.mem_cons.mp hx with rfl | hx
      · omega
      · have := ha x hx; omega

lemma sorted_last_max {l : List PosT} (hs : TsSorted l) {m : PosT}
    (hm : l.getLast? = some m) : ∀ x ∈ l, x.timestamp ≤ m.timestamp := by
  induction l with
  | nil => simp at hm
  | cons a l ih =>
    obtain ⟨ha, hl⟩ := List.pairwise_cons.mp hs
    cases l with
    | nil =>
      simp only [List.getLast?_singleton, Option.some.injEq] at hm
      subst hm
      simp
    | cons b l' =>
      rw [List.getLast?_cons_cons] at hm
      intro x hx
      rcases List.mem_cons.mp hx with rfl | hx
      · have hmem := List.mem_of_getLast?_eq_some hm
        have := ha m hmem
        omega
      · exact ih hl hm x hx

lemma stdSearch_index (key : α → ℤ) (l : List α) (t : ℤ) :
    (match stdBinarySearchByKey key l t with | .ok i => i | .error i => i) =
      lowerBoundIdx key l t := by
  unfold stdBinarySearchByKey
  cases hl : l[lowerBoundIdx key l t]? with
  | none => rfl
  | some x => by_cases h : key x = t <;> simp [h]

lemma sorted_assembly {t : ℤ} {l : List PosT} (hs : TsSorted l) {p : PosT}
    (hp : p.timestamp = t) {tail : List PosT}
    (htail : ∀ x ∈ tail, t < x.timestamp) (htailsort : TsSorted tail) :
    TsSorted ((l.takeWhile fun n => decide (n.timestamp < t)) ++ p :: tail) := by
  rw [TsSorted, List.pairwise_append]
  refine ⟨hs.sublist (List.takeWhile_sublist _), ?_, ?_⟩
  · exact List.pairwise_cons.mpr ⟨fun y hy => by have := htail y hy; omega, htailsort⟩
  · intro a ha b hb
    have ha' : a.timestamp < t := by
      simpa using List.mem_takeWhile_imp ha
    rcases List.mem_cons.mp hb with rfl | hb
    · omega
    · have := htail b hb; omega

/-- The branch structure of `RecordedWay::add` on a state satisfying the
invariant (sorted timestamps, uninitialised cache): the append branch. -/
lemma add_append_branch (dist : PosT → PosT → ℚ) {r : RecordedWay} {p : PosT}
    (hlast : r.way.nodes = [] ∨
      ∃ last, r.way.nodes.getLast? = some last ∧
        last.timestamp < p.timestamp) :
    RecordedWay.add dist r p = some ⟨r.way.append dist accT p⟩ := by
  unfold RecordedWay.add
  rcases hlast with hnil | ⟨last, hl, hlt⟩
  · rw [if_pos]
    rw [hnil]
    simp
  · rw [if_pos]
    rw [hl]
    simpa using hlt

/-- The branch structure of `RecordedWay::add`: the replace branch, taken
when some node already carries the new sample's timestamp. -/
lemma add_found_branch (dist : PosT → PosT → ℚ) {r : RecordedWay} {p : PosT}
    {j : ℕ} {x : PosT} (hs : TsSorted r.way.nodes)
    (hc : r.way.accCache = none) (hj : r.way.nodes[j]? = some x)
    (hx : x.timestamp = p.timestamp) :
    RecordedWay.add dist r p =
      some ⟨⟨r.way.nodes.set j p,
             pathLength dist (r.way.nodes.set j p), none⟩⟩ := by
  obtain ⟨hjlen, hget⟩ := List.getElem?_eq_some_iff.mp hj
  have hne : r.way.nodes ≠ [] := by
    intro h
    rw [h] at hjlen
    simp at hjlen
  obtain ⟨m, hm⟩ := Option.ne_none_iff_exists'.mp
    (mt List.getLast?_eq_none_iff.mp hne)
  have hmax := sorted_last_max hs hm x (List.getElem?_mem hj)
  have hidx : (r.way.nodes.takeWhile
      fun n => decide (n.timestamp < p.timestamp)).length = j := by
    apply takeWhile_length_eq
    · intro i hi
      have hilen : i < r.way.nodes.length := lt_trans hi hjlen
      refine ⟨r.way.nodes[i], List.getElem?_eq_getElem hilen, ?_⟩
      have hlt := sorted_getElem?_lt hs hi (List.getElem?_eq_getElem hilen) hj
      simp only [decide_eq_true_eq]
      omega
    · intro y hy
      rw [hj] at hy
      cases hy
      simp [hx]
  have hcond : (match r.way.nodes.getLast? with
      | some last => decide (last.timestamp < p.timestamp)
      | none => true) = false := by
    rw [hm]
    simp only [decide_eq_false_iff_not, not_lt]
    omega
  have hsearch : stdBinarySearchByKey (fun x => x.timestamp) r.way.nodes
      p.timestamp = .ok j := by
    have hlb : lowerBoundIdx (fun x => x.timestamp) r.way.nodes
        p.timestamp = j := hidx
    unfold stdBinarySearchByKey
    rw [hlb, hj]
    simp [hx]
  have hupd : r.way.update dist accT j p =
      some ⟨r.way.nodes.set j p, pathLength dist (r.way.nodes.set j p),
            none⟩ := by
    unfold Way.update
    rw [dif_pos hjlen, hc]
    rfl
  simp only [RecordedWay.add, hcond, Bool.false_eq_true, if_false]
  rw [hsearch]
  simp only [hupd, Option.map_some']

/-- The branch structure of `RecordedWay::add`: the out-of-order insert
branch, taken when the new timestamp falls strictly between two existing
ones. -/
lemma add_between_branch (dist : PosT → PosT → ℚ) {r : RecordedWay} {p : PosT}
    {k : ℕ} {x y : PosT} (hs : TsSorted r.way.nodes)
    (hc : r.way.accCache = none) (hk : r.way.nodes[k]? = some x)
    (hk1 : r.way.nodes[k + 1]? = some y) (h1 : x.timestamp < p.timestamp)
    (h2 : p.timestamp < y.timestamp) :
    RecordedWay.add dist r p =
      some ⟨⟨r.way.nodes.insertIdx (k + 1) p,
             pathLength dist (r.way.nodes.insertIdx (k + 1) p), none⟩⟩ := by
  obtain ⟨hklen, hgetk⟩ := List.getElem?_eq_some_iff.mp hk
  obtain ⟨hk1len, hgetk1⟩ := List.getElem?_eq_some_iff.mp hk1
  have hne : r.way.nodes ≠ [] := by
    intro h
    rw [h] at hklen
    simp at hklen
  obtain ⟨m, hm⟩ := Option.ne_none_iff_exists'.mp
    (mt List.getLast?_eq_none_iff.mp hne)
  have hmax := sorted_last_max hs hm y (List.getElem?_mem hk1)
  have hidx : (r.way.nodes.takeWhile
      fun n => decide (n.timestamp < p.timestamp)).length = k + 1 := by
    apply takeWhile_length_eq
    · intro i hi
      have hilen : i < r.way.nodes.length := lt_trans hi hk1len
      refine ⟨r.way.nodes[i], List.getElem?_eq_getElem hilen, ?_⟩
      simp only [decide_eq_true_eq]
      rcases Nat.lt_succ_iff_lt_or_eq.mp hi with hik | rfl
      · have hlt := sorted_getElem?_lt hs hik (List.getElem?_eq_getElem hilen) hk
        omega
      · have : r.way.nodes[i] = x := hgetk
        rw [this]
        omega
    · intro z hz
      rw [hk1] at hz
      cases hz
      simp only [decide_eq_true_eq]
      omega
  have hcond : (match r.way.nodes.getLast? with
      | some last => decide (last.timestamp < p.timestamp)
      | none => true) = false := by
    rw [hm]
    simp only [decide_eq_false_iff_not, not_lt]
    omega
  have hsearch : stdBinarySearchByKey (fun x => x.timestamp) r.way.nodes
      p.timestamp = .error (k + 1) := by
    have hlb : lowerBoundIdx (fun x => x.timestamp) r.way.nodes
        p.timestamp = k + 1 := hidx
    unfold stdBinarySearchByKey
    rw [hlb, hk1]
    have hne' : ¬ (y.timestamp = p.timestamp) := by omega
    simp [hne']
  have hins : r.way.insert dist accT (k + 1) p =
      some ⟨r.way.nodes.insertIdx (k + 1) p,
            pathLength dist (r.way.nodes.insertIdx (k + 1) p), none⟩ := by
    unfold Way.insert
    rw [if_pos (le_of_lt hk1len), hc]
  simp only [RecordedWay.add, hcond, Bool.false_eq_true, if_false]
  rw [hsearch]
  simp only [hins, Option.map_some']

lemma dropWhile_all_gt {t : ℤ} {l : List PosT} (hs : TsSorted l) {x : PosT}
    (hhead : (l.dropWhile fun n => decide (n.timestamp < t)).head? = some x)
    (hxt : x.timestamp ≠ t) :
    ∀ y ∈ l.dropWhile fun n => decide (n.timestamp < t), t < y.timestamp := by
  have hds : TsSorted (l.dropWhile fun n => decide (n.timestamp < t)) :=
    hs.sublist (List.dropWhile_sublist _)
  have hge := sorted_mem_dropWhile_ge (t := t) hs
  cases hd : l.dropWhile fun n => decide (n.timestamp < t) with
  | nil => simp
  | cons x' rest =>
    rw [hd] at hhead
    simp only [List.head?_cons, Option.some.injEq] at hhead
    have hxt' : x'.timestamp ≠ t := by rw [hhead]; exact hxt
    rw [hd] at hds hge
    intro y hy
    rcases List.mem_cons.mp hy with rfl | hy
    · have := hge y (List.mem_cons_self _ _)
      omega
    · have hxy := (List.pairwise_cons.mp hds).1 y hy
      have hxge := hge x' (List.mem_cons_self _ _)
      omega

lemma stdSearch_cases (key : α → ℤ) (l : List α) (t : ℤ) :
    (∃ i, stdBinarySearchByKey key l t = .error i ∧ i = lowerBoundIdx key l t ∧
      ∀ x, l[i]? = some x → key x ≠ t) ∨
    (∃ i x, stdBinarySearchByKey key l t = .ok i ∧ i = lowerBoundIdx key l t ∧
      l[i]? = some x ∧ key x = t) := by
  unfold stdBinarySearchByKey
  rcases hnl : l[lowerBoundIdx key l t]? with _ | x
  · left
    exact ⟨_, rfl, rfl, fun x hx => by rw [hnl] at hx; cases hx⟩
  · by_cases hxt : key x = t
    · right
      exact ⟨_, x, by simp [hxt], rfl, hnl, hxt⟩
    · left
      refine ⟨_, by simp [hxt], rfl, ?_⟩
      intro z hz
      rw [hnl] at hz
      cases hz
      exact hxt

/-- `RecordedWay::add` preserves the invariant: along successful `add`
calls the node timestamps stay strictly sorted and the accuracy cache stays
uninitialised. -/
lemma add_preserves {dist : PosT → PosT → ℚ} {r r' : RecordedWay} {p : PosT}
    (hs : TsSorted r.way.nodes) (hc : r.way.accCache = none)
    (h : RecordedWay.add dist r p = some r') :
    TsSorted r'.way.nodes ∧ r'.way.accCache = none := by
  have e1 : lowerBoundIdx (fun x : PosT => x.timestamp) r.way.nodes
      p.timestamp =
      (r.way.nodes.takeWhile fun n => decide (n.timestamp < p.timestamp)).length :=
    rfl
  cases hcond : (match r.way.nodes.getLast? with
      | some last => decide (last.timestamp < p.timestamp)
      | none => true) with
  | true =>
    have hadd : RecordedWay.add dist r p = some ⟨r.way.append dist accT p⟩ := by
      unfold RecordedWay.add
      rw [hcond, if_pos rfl]
    rw [hadd] at h
    injection h with h'
    subst h'
    refine ⟨?_, by simp [Way.append, hc]⟩
    show TsSorted (r.way.nodes ++ [p])
    rw [TsSorted, List.pairwise_append]
    refine ⟨hs, List.pairwise_singleton _ _, ?_⟩
    intro a ha b hb
    rw [List.mem_singleton.mp hb]
    show a.timestamp < p.timestamp
    cases hl : r.way.nodes.getLast? with
    | none =>
      rw [List.getLast?_eq_none_iff.mp hl] at ha
      simp at ha
    | some last =>
      rw [hl] at hcond
      have hlt : last.timestamp < p.timestamp := by simpa using hcond
      have := sorted_last_max hs hl a ha
      omega
  | false =>
    rcases stdSearch_cases (fun x : PosT => x.timestamp) r.way.nodes
        p.timestamp with
      ⟨i, hsr, hlb, hmiss⟩ | ⟨i, x, hsr, hlb, hfound, hxt⟩
    · -- miss: insert at the lower bound
      have hadd0 : RecordedWay.add dist r p =
          (r.way.insert dist accT i p).map (⟨·⟩) := by
        unfold RecordedWay.add
        rw [hcond, if_neg (by simp), hsr]
      rw [hadd0] at h
      obtain ⟨w', hw', rfl⟩ := Option.map_eq_some'.mp h
      unfold Way.insert at hw'
      rw [if_pos (by rw [hlb, e1]; exact takeWhile_length_le _ _)] at hw'
      injection hw' with hw'
      subst hw'
      refine ⟨?_, by rw [hc]⟩
      show TsSorted (r.way.nodes.insertIdx i p)
      rw [hlb, e1, insertIdx_length_takeWhile]
      refine sorted_assembly hs rfl ?_ (hs.sublist (List.dropWhile_sublist _))
      have hhead := getElem?_length_takeWhile
        (fun n => decide (n.timestamp < p.timestamp)) r.way.nodes
      cases hd : (r.way.nodes.dropWhile
          fun n => decide (n.timestamp < p.timestamp)).head? with
      | none =>
        intro z hz
        rw [List.head?_eq_none_iff.mp hd] at hz
        cases hz
      | some x0 =>
        refine dropWhile_all_gt hs hd ?_
        have hx0 : r.way.nodes[i]? = some x0 := by
          rw [hlb, e1, hhead, hd]
        exact hmiss x0 hx0
    · -- hit: update (replace) at the lower bound
      have hadd0 : RecordedWay.add dist r p =
          (r.way.update dist accT i p).map (⟨·⟩) := by
        unfold RecordedWay.add
        rw [hcond, if_neg (by simp), hsr]
      rw [hadd0] at h
      obtain ⟨w', hw', rfl⟩ := Option.map_eq_some'.mp h
      have hilen : i < r.way.nodes.length := (List.getElem?_eq_some_iff.mp hfound).1
      unfold Way.update at hw'
      rw [dif_pos hilen, hc] at hw'
      have hred : updateCache (accT (r.way.nodes.get ⟨i, hilen⟩)) (accT p)
          none = some none := rfl
      rw [hred] at hw'
      injection hw' with hw'
      subst hw'
      refine ⟨?_, rfl⟩
      show TsSorted (r.way.nodes.set i p)
      have hhead := getElem?_length_takeWhile
        (fun n => decide (n.timestamp < p.timestamp)) r.way.nodes
      have hfound' : (r.way.nodes.dropWhile
          fun n => decide (n.timestamp < p.timestamp)).head? = some x := by
        rw [← hhead, ← e1, ← hlb]
        exact hfound
      obtain ⟨rest, hrest⟩ : ∃ rest, (r.way.nodes.dropWhile
          fun n => decide (n.timestamp < p.timestamp)) = x :: rest := by
        cases hdw : (r.way.nodes.dropWhile
            fun n => decide (n.timestamp < p.timestamp)) with
        | nil => rw [hdw] at hfound'; cases hfound'
        | cons a r0 =>
          rw [hdw] at hfound'
          simp only [List.head?_cons, Option.some.injEq] at hfound'
          subst hfound'
          exact ⟨r0, rfl⟩
      have hdsort : TsSorted (x :: rest) :=
        hrest ▸ hs.sublist (List.dropWhile_sublist _)
      rw [hlb, e1, set_length_takeWhile p hrest]
      refine sorted_assembly hs rfl ?_ (List.pairwise_cons.mp hdsort).2
      intro z hz
      have hxz := (List.pairwise_cons.mp hdsort).1 z hz
      have hxts : x.timestamp = p.timestamp := hxt
      omega


/-- The length invariant for all reachable `Way` states. -/
lemma reachable_length_invariant {dist : α → α → ℚ} {acc : α → Option ℚ}
    {w : Way α} (h : Way.Reachable dist acc w) :
    w.length = pathLength dist w.nodes := by
  induction h with
  | new => rfl
  | append hw ih =>
    rename_i w p
    show (w.append dist acc p).length = _
    simp only [Way.append, pathLength_append_last, ih]
    cases hl : w.nodes.getLast? <;> simp [hl]
  | insert hw hstep ih => exact length_eq_of_insert hstep
  | update hw hstep ih => exact length_eq_of_update hstep
  | force hw ih => exact ih

/-- Along any sequence of successful `RecordedWay::add` calls the node
timestamps stay strictly sorted and the accuracy cache stays
uninitialised. -/
lemma rec_reachable_invariant {dist : PosT → PosT → ℚ} {r : RecordedWay}
    (h : RecordedWay.Reachable dist r) :
    TsSorted r.way.nodes ∧ r.way.accCache = none := by
  induction h with
  | new => exact ⟨List.Pairwise.nil, rfl⟩
  | add hr hstep ih => exact add_preserves ih.1 ih.2 hstep

lemma pathLength_eq_zipWith (dist : α → α → ℚ) (l : List α) :
    pathLength dist l = (List.zipWith dist l l.tail).sum := by
  induction l with
  | nil => rfl
  | cons a l ih =>
    cases l with
    | nil => rfl
    | cons b rest =>
      simp only [pathLength, List.tail_cons, List.zipWith_cons_cons,
        List.sum_cons]
      rw [ih]
      simp

lemma dropWhile_eq_nil {p : α → Bool} {l : List α}
    (h : ∀ x ∈ l, p x = true) : l.dropWhile p = [] := by
  induction l with
  | nil => rfl
  | cons a l ih =>
    rw [List.dropWhile_cons, if_pos (h a (List.mem_cons_self _ _))]
    exact ih fun x hx => h x (List.mem_cons_of_mem _ hx)

/-- **C4.**  For every `Way` state reachable from the empty way via any
sequence of `append`, `insert` and `update` operations, the cached `length`
field equals the sum of the distances between all consecutive pairs of
nodes in order (exactly, in the idealised arithmetic) — even though
`append` only adds the tail segment incrementally while `insert` and
`update` recompute the full sum. -/
theorem way_length_invariant {α : Type} (dist : α → α → ℚ)
    (acc : α → Option ℚ) (w : Way α) (h : Way.Reachable dist acc w) :
    w.length = (List.zipWith dist w.nodes w.nodes.tail).sum :=
  (reachable_length_invariant h).trans (pathLength_eq_zipWith dist w.nodes)

theorem way_length_invariant_witness :
    ((Way.new.append distQ accQ 1).append distQ accQ 4).length =
      (List.zipWith distQ
        ((Way.new.append distQ accQ 1).append distQ accQ 4).nodes
        ((Way.new.append distQ accQ 1).append distQ accQ 4).nodes.tail).sum :=
  way_length_invariant distQ accQ _
    (Way.Reachable.append (Way.Reachable.append Way.Reachable.new))

/-- **C3.**  For every `RecordedWay` state reachable by a sequence of `add`
calls, the node timestamps are strictly increasing; and for every new
sample: a timestamp strictly beyond the last node (or an empty way) is
appended; a timestamp equal to an existing node's replaces that node and
leaves the node count unchanged; a timestamp strictly between two existing
nodes' is inserted at the correct position and grows the node count by
exactly one. -/
theorem recordedWay_add_spec (dist : PosT → PosT → ℚ) (r : RecordedWay)
    (h : RecordedWay.Reachable dist r) :
    TsSorted r.way.nodes ∧
    (∀ p : PosT,
      (r.way.nodes = [] ∨ ∃ last, r.way.nodes.getLast? = some last ∧
        last.timestamp < p.timestamp) →
      ∃ r', RecordedWay.add dist r p = some r' ∧
        r'.way.nodes = r.way.nodes ++ [p]) ∧
    (∀ p : PosT, ∀ j : ℕ, ∀ x : PosT, r.way.nodes[j]? = some x →
      x.timestamp = p.timestamp →
      ∃ r', RecordedWay.add dist r p = some r' ∧
        r'.way.nodes = r.way.nodes.set j p ∧
        r'.way.nodes.length = r.way.nodes.length) ∧
    (∀ p : PosT, ∀ k : ℕ, ∀ x y : PosT, r.way.nodes[k]? = some x →
      r.way.nodes[k + 1]? = some y →
      x.timestamp < p.timestamp → p.timestamp < y.timestamp →
      ∃ r', RecordedWay.add dist r p = some r' ∧
        r'.way.nodes = r.way.nodes.insertIdx (k + 1) p ∧
        r'.way.nodes.length = r.way.nodes.length + 1) := by
  obtain ⟨hs, hc⟩ := rec_reachable_invariant h
  refine ⟨hs, ?_, ?_, ?_⟩
  · intro p hp
    exact ⟨⟨r.way.append dist accT p⟩, add_append_branch dist hp, rfl⟩
  · intro p j x hj hx
    refine ⟨_, add_found_branch dist hs hc hj hx, rfl, ?_⟩
    simp
  · intro p k x y hk hk1 h1 h2
    refine ⟨_, add_between_branch dist hs hc hk hk1 h1 h2, rfl, ?_⟩
    have hlen := (List.getElem?_eq_some_iff.mp hk1).1
    exact List.length_insertIdx _ _ (le_of_lt hlen)

theorem recordedWay_add_spec_witness :
    (∃ r', RecordedWay.add dist0 wayScenB (mkPos 10 (some 3)) = some r' ∧
      r'.way.nodes = wayScenB.way.nodes.set 1 (mkPos 10 (some 3)) ∧
      r'.way.nodes.length = wayScenB.way.nodes.length) ∧
    wayScenB.way.nodes.set 1 (mkPos 10 (some 3)) =
      [mkPos 5 (some 2), mkPos 10 (some 3)] := by
  constructor
  · exact (recordedWay_add_spec dist0 wayScenB
      (RecordedWay.Reachable.add
        (RecordedWay.Reachable.add RecordedWay.Reachable.new
          (show RecordedWay.add dist0 RecordedWay.new (mkPos 10 (some 1)) =
            some wayScenB1 by rfl))
        (show RecordedWay.add dist0 wayScenB1 (mkPos 5 (some 2)) =
          some wayScenB by rfl))).2.2.1
      (mkPos 10 (some 3)) 1 (mkPos 10 (some 1)) (by decide) (by decide)
  · decide

/-- **C7.**  For every `RecordedWay` whose node timestamps are strictly
increasing and every query timestamp `t`, `get_since(t)` returns exactly the
suffix of the node sequence beginning at the first node with timestamp
`≥ t`: the whole sequence when `t` precedes all nodes, the empty slice when
`t` is beyond all nodes. -/
theorem getSince_spec (r : RecordedWay) (t : ℤ) (hs : TsSorted r.way.nodes) :
    r.getSince t =
      r.way.nodes.dropWhile (fun x => decide (x.timestamp < t)) ∧
    ((∀ x ∈ r.way.nodes, t ≤ x.timestamp) → r.getSince t = r.way.nodes) ∧
    ((∀ x ∈ r.way.nodes, x.timestamp < t) → r.getSince t = []) := by
  have h1 : r.getSince t =
      r.way.nodes.dropWhile (fun x => decide (x.timestamp < t)) := by
    unfold RecordedWay.getSince
    rw [stdSearch_index]
    exact drop_length_takeWhile _ _
  refine ⟨h1, ?_, ?_⟩
  · intro hall
    rw [h1]
    cases hnl : r.way.nodes with
    | nil => simp
    | cons a l =>
      have ha : ¬ (a.timestamp < t) :=
        not_lt.mpr (hall a (by rw [hnl]; exact List.mem_cons_self _ _))
      rw [List.dropWhile_cons, if_neg (by simpa using ha)]
  · intro hall
    rw [h1]
    exact dropWhile_eq_nil fun x hx => by simpa using hall x hx

theorem getSince_spec_witness :
    TsSorted way1357.way.nodes ∧
    RecordedWay.getSince way1357 4 = [mkPos 5 none, mkPos 7 none] := by
  have hs : TsSorted way1357.way.nodes := by
    rw [TsSorted]
    decide
  exact ⟨hs, ((getSince_spec way1357 4 hs).1).trans (by decide)⟩

lemma insertOrd_eq (a : ℚ) (l : List ℚ) :
    insertOrd a l = List.orderedInsert (· ≤ ·) a l := by
  induction l with
  | nil => rfl
  | cons x xs ih => simp [insertOrd, List.orderedInsert, ih]

lemma sortQ_eq (l : List ℚ) : sortQ l = List.insertionSort (· ≤ ·) l := by
  induction l with
  | nil => rfl
  | cons a l ih =>
    simp only [sortQ, List.foldr_cons, List.insertionSort]
    rw [← ih, insertOrd_eq]
    rfl

lemma sortQ_sorted (l : List ℚ) : (sortQ l).Pairwise (· ≤ ·) := by
  rw [sortQ_eq]
  exact List.sorted_insertionSort _ l

lemma sortQ_perm (l : List ℚ) : (sortQ l).Perm l := by
  rw [sortQ_eq]
  exact List.perm_insertionSort _ l

lemma sortQ_eq_nil_iff (l : List ℚ) : sortQ l = [] ↔ l = [] := by
  constructor
  · intro h
    have hp := sortQ_perm l
    rw [h] at hp
    exact hp.symm.eq_nil
  · intro h
    rw [h]
    rfl

/-- **C5** (failing input for the incremental accuracy-cache maintenance):
`wayBug` is reachable (three `append`s and one cache-materialising read),
its cache holds exactly the sorted accuracies `[1, 2, 3]`, node 0's
accuracy `1` is present in the cache — and yet `Way::update` on node 0
panics (returns `none`), because the comparator passed to the removal
binary search compares the target to the probed element instead of the
probed element to the target, so the search walks the wrong half and
misses. -/
theorem way_update_panics_on_present_accuracy :
    Way.Reachable dist0 accT wayBug ∧
    wayBug.accCache = some [1, 2, 3] ∧
    wayBug.nodes[0]? = some (mkPos 1 (some 1)) ∧
    accT (mkPos 1 (some 1)) = some 1 ∧
    (1 : ℚ) ∈ [(1 : ℚ), 2, 3] ∧
    Way.update dist0 accT wayBug 0 (mkPos 1 (some 1)) = none := by
  refine ⟨?_, ?_, ?_, rfl, ?_, ?_⟩
  · exact .force (.append (.append (.append .new)))
  · decide
  · decide
  · decide
  · decide

/-- **C6.**  For every `Way` whose accuracy cache is consistent (in
particular any freshly deserialised or reachable way), `median_accuracy()`
is `None` exactly when no node reports an accuracy; for an odd count it is
the middle element of the sorted accuracy list; for an even count it is the
arithmetic mean of the two middle elements.  The list `l` is sorted and is
a permutation of the reported accuracies (the sorted multiset). -/
theorem medianAccuracy_spec {α : Type} (acc : α → Option ℚ) (w : Way α)
    (l : List ℚ) (hl : l = sortQ (w.nodes.filterMap acc))
    (hcache : w.accuracies acc = l) :
    l.Pairwise (· ≤ ·) ∧ l.Perm (w.nodes.filterMap acc) ∧
    (w.medianAccuracy acc = none ↔ w.nodes.filterMap acc = []) ∧
    (l.length % 2 = 1 →
      w.medianAccuracy acc = some (l.getD (l.length / 2) 0)) ∧
    (l ≠ [] → l.length % 2 = 0 →
      w.medianAccuracy acc =
        some ((l.getD (l.length / 2) 0 + l.getD (l.length / 2 - 1) 0) / 2)) := by
  subst hl
  refine ⟨sortQ_sorted _, sortQ_perm _, ?_, ?_, ?_⟩
  · rw [Way.medianAccuracy, hcache]
    by_cases h0 : (sortQ (w.nodes.filterMap acc)).length > 0
    · rw [if_pos h0]
      constructor
      · intro h
        by_cases hodd : (sortQ (w.nodes.filterMap acc)).length % 2 = 1 <;>
          simp [hodd] at h
      · intro h
        rw [← sortQ_eq_nil_iff] at h
        rw [h] at h0
        simp at h0
    · rw [if_neg h0]
      simp only [gt_iff_lt, not_lt, Nat.le_zero, List.length_eq_zero] at h0
      rw [← sortQ_eq_nil_iff]
      simp [h0]
  · intro hodd
    have h0 : (sortQ (w.nodes.filterMap acc)).length > 0 := by omega
    rw [Way.medianAccuracy, hcache, if_pos h0, if_pos hodd]
  · intro hne heven
    have h0 : (sortQ (w.nodes.filterMap acc)).length > 0 := by
      cases hb : sortQ (w.nodes.filterMap acc) with
      | nil => exact absurd hb hne
      | cons a t => simp
    rw [Way.medianAccuracy, hcache, if_pos h0, if_neg (by omega)]

theorem medianAccuracy_spec_witness :
    Way.medianAccuracy accT wayScenC = some 3 := by
  have h := (medianAccuracy_spec accT wayScenC
      (sortQ (wayScenC.nodes.filterMap accT)) rfl rfl).2.2.2.1 (by decide)
  exact h.trans (by decide)

/-- **C8.**  `Event::SaveCurrPos(name)`: a duplicate name leaves both the
spatial index and the name map untouched; a fresh name with a known current
position inserts the new `SavedPos` into both; a fresh name without a known
position changes neither — so from the caller's perspective either both
structures are updated or neither is. -/
theorem saveCurrPos_spec (s : ModelState) (name : String) :
    ((s.savedPositionsNames.lookup name).isSome = true →
      (saveCurrPos s name).savedPositions = s.savedPositions ∧
      (saveCurrPos s name).savedPositionsNames = s.savedPositionsNames) ∧
    (∀ geo : GeoInfoM, s.savedPositionsNames.lookup name = none →
      s.currPos = some (.ok geo) →
      (saveCurrPos s name).savedPositions =
        SavedPosM.new name geo :: s.savedPositions ∧
      (saveCurrPos s name).savedPositionsNames =
        (name, SavedPosM.new name geo) :: s.savedPositionsNames) ∧
    (s.savedPositionsNames.lookup name = none →
      (∀ geo : GeoInfoM, s.currPos ≠ some (.ok geo)) →
      (saveCurrPos s name).savedPositions = s.savedPositions ∧
      (saveCurrPos s name).savedPositionsNames = s.savedPositionsNames) := by
  refine ⟨?_, ?_, ?_⟩
  · intro h
    unfold saveCurrPos
    rw [if_pos h]
    exact ⟨rfl, rfl⟩
  · intro geo hn hc
    unfold saveCurrPos
    rw [if_neg (by simp [hn]), hc]
    exact ⟨rfl, rfl⟩
  · intro hn hnc
    unfold saveCurrPos
    rw [if_neg (by simp [hn])]
    cases hcp : s.currPos with
    | none => exact ⟨rfl, rfl⟩
    | some g =>
      cases g with
      | error e => exact ⟨rfl, rfl⟩
      | ok geo => exact absurd hcp (hnc geo)

theorem saveCurrPos_spec_witness :
    (stateHome1.savedPositionsNames.lookup "home").isSome = true ∧
    (saveCurrPos stateHome1 "home").savedPositions =
      stateHome1.savedPositions ∧
    (saveCurrPos stateHome1 "home").savedPositionsNames =
      stateHome1.savedPositionsNames := by
  have hdup : (stateHome1.savedPositionsNames.lookup "home").isSome = true := by
    rfl
  have h := (saveCurrPos_spec stateHome1 "home").1 hdup
  exact ⟨hdup, h.1, h.2⟩

/-- **C10.**  After the event `ViewNRecordedWays(n)` the view model's list
of saved recorded ways has at most `n - 1` entries (saturating
subtraction: none when `n ≤ 1`), however many saved ways exist; the "since
app start" way is reported through the separate `waySinceAppStart` field,
unaffected by `n`. -/
theorem viewNRecordedWays_spec (st : RecViewState) (n : ℕ) :
    (viewOf (handleViewNRecordedWays st n)).recordedWays.length ≤ n - 1 ∧
    (n ≤ 1 → (viewOf (handleViewNRecordedWays st n)).recordedWays = []) ∧
    (viewOf (handleViewNRecordedWays st n)).waySinceAppStart =
      waySinceAppStartView st.allPositions := by
  refine ⟨?_, ?_, rfl⟩
  · simp only [viewOf, handleViewNRecordedWays, recordedWaysView]
    exact List.length_take_le _ _
  · intro hn
    have h1 : n - 1 = 0 := by omega
    simp [viewOf, handleViewNRecordedWays, recordedWaysView, h1]

theorem viewNRecordedWays_spec_witness :
    (1 : ℕ) ≤ 1 ∧
    (viewOf (handleViewNRecordedWays
      ⟨none, [("a", way1357), ("b", way1357), ("c", way1357)], 7⟩
      1)).recordedWays = [] :=
  ⟨le_refl 1,
   (viewNRecordedWays_spec
     ⟨none, [("a", way1357), ("b", way1357), ("c", way1357)], 7⟩ 1).2.1
     (le_refl 1)⟩

namespace Vec3

lemma dot_self_nonneg (a : Vec3) : 0 ≤ a.dot a := by
  have h : a.dot a = a.x ^ 2 + a.y ^ 2 + a.z ^ 2 := by
    simp only [dot]
    ring
  rw [h]
  positivity

lemma norm_nonneg' (a : Vec3) : 0 ≤ a.norm := Real.sqrt_nonneg _

lemma norm_sq (a : Vec3) : a.norm ^ 2 = a.dot a :=
  Real.sq_sqrt (dot_self_nonneg a)

lemma dot_comm (a b : Vec3) : a.dot b = b.dot a := by
  simp only [dot]
  ring

lemma lagrange (a b : Vec3) :
    (a.cross b).dot (a.cross b) = a.dot a * b.dot b - (a.dot b) ^ 2 := by
  simp only [dot, cross]
  ring

lemma dot_sq_le (a b : Vec3) : (a.dot b) ^ 2 ≤ a.dot a * b.dot b := by
  have h := dot_self_nonneg (a.cross b)
  rw [lagrange] at h
  linarith

lemma eq_zero_of_dot_self_eq_zero {a : Vec3} (h : a.dot a = 0) :
    a = ⟨0, 0, 0⟩ := by
  have h' : a.x ^ 2 + a.y ^ 2 + a.z ^ 2 = 0 := by
    rw [← h]
    simp only [dot]
    ring
  have hx : a.x = 0 := by nlinarith [sq_nonneg a.x, sq_nonneg a.y, sq_nonneg a.z]
  have hy : a.y = 0 := by nlinarith [sq_nonneg a.x, sq_nonneg a.y, sq_nonneg a.z]
  have hz : a.z = 0 := by nlinarith [sq_nonneg a.x, sq_nonneg a.y, sq_nonneg a.z]
  ext <;> assumption

lemma unit_zero : Vec3.unit ⟨0, 0, 0⟩ = ⟨0, 0, 0⟩ := by
  ext <;> simp [unit]

lemma cross_zero_left (b : Vec3) : Vec3.cross ⟨0, 0, 0⟩ b = ⟨0, 0, 0⟩ := by
  ext <;> simp [cross]

lemma dot_zero_left (b : Vec3) : Vec3.dot ⟨0, 0, 0⟩ b = 0 := by
  simp [dot]

lemma unit_eq_smul (a : Vec3) : a.unit = Vec3.smul a.norm⁻¹ a := by
  ext <;> simp [unit, smul, div_eq_inv_mul]

lemma cross_smul_left (t : ℝ) (a b : Vec3) :
    (Vec3.smul t a).cross b = Vec3.smul t (a.cross b) := by
  ext <;> simp [cross, smul] <;> ring

lemma cross_smul_right (t : ℝ) (a b : Vec3) :
    a.cross (Vec3.smul t b) = Vec3.smul t (a.cross b) := by
  ext <;> simp [cross, smul] <;> ring

lemma smul_dot (t : ℝ) (a b : Vec3) :
    (Vec3.smul t a).dot b = t * (a.dot b) := by
  simp [dot, smul]
  ring

lemma dot_smul (t : ℝ) (a b : Vec3) :
    a.dot (Vec3.smul t b) = t * (a.dot b) := by
  simp [dot, smul]
  ring

lemma add_dot (a b c : Vec3) : (a.add b).dot c = a.dot c + b.dot c := by
  simp [dot, add]
  ring

lemma dot_add (a b c : Vec3) : a.dot (b.add c) = a.dot b + a.dot c := by
  simp [dot, add]
  ring

lemma norm_smul (t : ℝ) (a : Vec3) :
    (Vec3.smul t a).norm = |t| * a.norm := by
  have h : (Vec3.smul t a).dot (Vec3.smul t a) = t ^ 2 * a.dot a := by
    simp [dot, smul]
    ring
  rw [norm, h, norm, Real.sqrt_mul (sq_nonneg t), Real.sqrt_sq_eq_abs]

end Vec3

lemma bounds_of_sq_le {X A : ℝ} (h : X ^ 2 ≤ A ^ 2) (hA : 0 ≤ A) :
    -A ≤ X ∧ X ≤ A := by
  rcases eq_or_lt_of_le hA with heq | hpos
  · have hz : X ^ 2 ≤ 0 := by rw [← heq] at h; simpa using h
    have hx2 : X ^ 2 = 0 := le_antisymm hz (sq_nonneg X)
    have hx : X = 0 := by
      have := pow_eq_zero_iff (n := 2) (by norm_num) |>.mp hx2
      exact this
    constructor <;> simp [hx, ← heq]
  · constructor
    · by_contra hlt
      push_neg at hlt
      nlinarith [mul_pos (by linarith : (0:ℝ) < -A - X) (by linarith : (0:ℝ) < A - X)]
    · by_contra hlt
      push_neg at hlt
      nlinarith [mul_pos (by linarith : (0:ℝ) < X - A) (by linarith : (0:ℝ) < X + A)]

/-- Core geometric inequality behind `Line::extrema`: on the unit-circle
arc `{u·s + v·e : u, v ≥ 0}` (in height coordinates `a = d·s`, `b = d·e`,
`c = s·e`), when the side indicator `b ≤ c·a` holds the height of every arc
point is bounded by the endpoint heights. -/
lemma endpoint_max_bound {u v c a b : ℝ} (hu : 0 ≤ u) (hv : 0 ≤ v)
    (hE : u ^ 2 + v ^ 2 + 2 * u * v * c = 1) (hc : c ^ 2 ≤ 1)
    (hA : b ≤ c * a) : u * a + v * b ≤ max a b := by
  have hc1 : c ≤ 1 := by nlinarith [sq_nonneg (c - 1)]
  have hc1' : -1 ≤ c := by nlinarith [sq_nonneg (c + 1)]
  have hL2 : u + v * c ≤ 1 := by
    have h2 : (u + v * c) ^ 2 ≤ 1 := by
      nlinarith [mul_nonneg (sq_nonneg v) (by linarith : (0:ℝ) ≤ 1 - c ^ 2)]
    nlinarith [sq_nonneg (u + v * c - 1)]
  rcases lt_or_le 0 a with hapos | hanonpos
  · -- positive start height: `u·a + v·b ≤ (u + v·c)·a ≤ a`
    have h1 : v * b ≤ v * (c * a) := mul_le_mul_of_nonneg_left hA hv
    have h3 : (u + v * c) * a ≤ 1 * a :=
      mul_le_mul_of_nonneg_right hL2 (le_of_lt hapos)
    have h4 : a ≤ max a b := le_max_left a b
    nlinarith
  · rcases le_or_lt b 0 with hbnonpos | hbpos
    · -- both endpoint heights nonpositive: use `u + v ≥ 1`
      have hL1 : 1 ≤ u + v := by
        have huv : 0 ≤ u + v := by linarith
        have hsq : 1 ≤ (u + v) ^ 2 := by
          nlinarith [mul_nonneg (mul_nonneg hu hv) (by linarith : (0:ℝ) ≤ 1 - c)]
        by_contra hlt
        push_neg at hlt
        nlinarith [mul_nonneg huv (by linarith : (0:ℝ) ≤ 1 - (u + v))]
      have hmax0 : max a b ≤ 0 := max_le hanonpos hbnonpos
      have h1 : u * a ≤ u * max a b :=
        mul_le_mul_of_nonneg_left (le_max_left a b) hu
      have h2 : v * b ≤ v * max a b :=
        mul_le_mul_of_nonneg_left (le_max_right a b) hv
      nlinarith [mul_nonneg (by linarith : (0:ℝ) ≤ u + v - 1)
        (by linarith : (0:ℝ) ≤ -(max a b))]
    · -- `a ≤ 0 < b ≤ c·a` forces `a < 0`, `c < 0`
      have hca : 0 < c * a := lt_of_lt_of_le hbpos hA
      have haneg : a < 0 := by
        rcases lt_or_eq_of_le hanonpos with h | h
        · exact h
        · rw [h] at hca
          simp at hca
      have hcneg : c < 0 := by
        by_contra hge
        push_neg at hge
        nlinarith [mul_nonneg hge (by linarith : (0:ℝ) ≤ -a)]
      have hmax : max a b = b := max_eq_right (by linarith)
      rw [hmax]
      rcases le_or_lt v 1 with hv1 | hv1
      · have h1 : u * a ≤ 0 := mul_nonpos_of_nonneg_of_nonpos hu (le_of_lt haneg)
        have h2 : 0 ≤ (1 - v) * b := mul_nonneg (by linarith) (le_of_lt hbpos)
        nlinarith
      · -- wide arcs: `v > 1`, use `c ≤ u + v·c`
        have hv2 : 1 ≤ v ^ 2 := by nlinarith
        have hsq : (u + v * c) ^ 2 ≤ c ^ 2 := by
          nlinarith [mul_nonneg (by linarith : (0:ℝ) ≤ v ^ 2 - 1)
            (by linarith : (0:ℝ) ≤ 1 - c ^ 2)]
        have h3 : c ≤ u + v * c := by
          have hb := bounds_of_sq_le (X := u + v * c) (A := -c)
            (by rw [neg_sq]; exact hsq) (by linarith)
          linarith [hb.1]
        have h4 : a * (u + v * c - c) ≤ 0 :=
          mul_nonpos_of_nonpos_of_nonneg (le_of_lt haneg) (by linarith)
        have h5 : (v - 1) * b ≤ (v - 1) * (c * a) :=
          mul_le_mul_of_nonneg_left hA (by linarith)
        nlinarith

lemma endpoint_max_bound' {u v c a b : ℝ} (hu : 0 ≤ u) (hv : 0 ≤ v)
    (hE : u ^ 2 + v ^ 2 + 2 * u * v * c = 1) (hc : c ^ 2 ≤ 1)
    (hA : a ≤ c * b) : u * a + v * b ≤ max a b := by
  have h := endpoint_max_bound hv hu (by linear_combination hE) hc hA
  rw [max_comm b a] at h
  linarith

lemma endpoint_min_bound {u v c a b : ℝ} (hu : 0 ≤ u) (hv : 0 ≤ v)
    (hE : u ^ 2 + v ^ 2 + 2 * u * v * c = 1) (hc : c ^ 2 ≤ 1)
    (hA : c * a ≤ b) : min a b ≤ u * a + v * b := by
  have h := endpoint_max_bound (a := -a) (b := -b) hu hv hE hc
    (by rw [mul_neg]; linarith)
  rw [max_neg_neg] at h
  linarith

lemma endpoint_min_bound' {u v c a b : ℝ} (hu : 0 ≤ u) (hv : 0 ≤ v)
    (hE : u ^ 2 + v ^ 2 + 2 * u * v * c = 1) (hc : c ^ 2 ≤ 1)
    (hA : c * b ≤ a) : min a b ≤ u * a + v * b := by
  have h := endpoint_min_bound hv hu (by linear_combination hE) hc hA
  rw [min_comm b a] at h
  linarith

lemma nvec_unit (ll : LatLongM) :
    (latLongToNVector ll).dot (latLongToNVector ll) = 1 := by
  simp only [latLongToNVector, Vec3.dot]
  linear_combination
    (Real.cos ll.lat ^ 2) * Real.sin_sq_add_cos_sq ll.long +
      Real.sin_sq_add_cos_sq ll.lat

lemma distance2_eq (a c : Vec3) :
    distance2 a c = a.dot a + c.dot c - 2 * a.dot c := by
  simp only [distance2, Vec3.dot]
  ring

lemma earthRadius_pos : (0 : ℝ) < earthRadius := by
  rw [earthRadius]
  norm_num

/-- **C2.**  For any two coordinates `a`, `b` and any query coordinate `c`,
the projected (chord-squared) distance of `a` to `c` is strictly smaller
than that of `b` to `c` exactly when the geodesic (great-circle) distance
is: ranking candidates by the spatial index's `distance_2` is identical to
ranking by true geodesic distance. -/
theorem chord_ranking_matches_geodesic (a b c : LatLongM) :
    distance2 (rtreePoint a) (rtreePoint c) <
      distance2 (rtreePoint b) (rtreePoint c) ↔
    geodesicDistance (rtreePoint a) (rtreePoint c) <
      geodesicDistance (rtreePoint b) (rtreePoint c) := by
  have hua := nvec_unit a
  have hub := nvec_unit b
  have huc := nvec_unit c
  have hmem : ∀ x : LatLongM,
      (rtreePoint x).dot (rtreePoint c) ∈ Set.Icc (-1 : ℝ) 1 := by
    intro x
    have h2 : ((rtreePoint x).dot (rtreePoint c)) ^ 2 ≤ 1 := by
      have := Vec3.dot_sq_le (rtreePoint x) (rtreePoint c)
      rw [show (rtreePoint x).dot (rtreePoint x) = 1 from nvec_unit x,
        show (rtreePoint c).dot (rtreePoint c) = 1 from nvec_unit c] at this
      linarith
    have hb := bounds_of_sq_le (A := 1) (by simpa using h2) one_pos.le
    exact ⟨hb.1, hb.2⟩
  have hchord : distance2 (rtreePoint a) (rtreePoint c) <
      distance2 (rtreePoint b) (rtreePoint c) ↔
      (rtreePoint b).dot (rtreePoint c) < (rtreePoint a).dot (rtreePoint c) := by
    rw [distance2_eq, distance2_eq,
      show (rtreePoint a).dot (rtreePoint a) = 1 from hua,
      show (rtreePoint b).dot (rtreePoint b) = 1 from hub]
    constructor <;> intro h <;> linarith
  have hgeo : geodesicDistance (rtreePoint a) (rtreePoint c) <
      geodesicDistance (rtreePoint b) (rtreePoint c) ↔
      (rtreePoint b).dot (rtreePoint c) < (rtreePoint a).dot (rtreePoint c) := by
    rw [geodesicDistance, geodesicDistance,
      mul_lt_mul_left earthRadius_pos]
    exact Real.strictAntiOn_arccos.lt_iff_lt (hmem a) (hmem b)
  rw [hchord, hgeo]

/-- **C9.**  `Line::distance_2(P)` equals the minimum of the three
quantities — cross-track distance from `P` to the arc's great circle,
geodesic distance from `P` to the start, geodesic distance from `P` to the
end — each divided by the planet radius and squared: it is a lower bound of
all three and coincides with one of them. -/
theorem lineDistance2_is_min_of_three (l : LineM) (p : Vec3) :
    (lineDistance2 l p ≤
        (crossTrackDistance p l.start l.endp / earthRadius) ^ 2 ∧
      lineDistance2 l p ≤ (geodesicDistance p l.start / earthRadius) ^ 2 ∧
      lineDistance2 l p ≤ (geodesicDistance p l.endp / earthRadius) ^ 2) ∧
    (lineDistance2 l p =
        (crossTrackDistance p l.start l.endp / earthRadius) ^ 2 ∨
      lineDistance2 l p = (geodesicDistance p l.start / earthRadius) ^ 2 ∨
      lineDistance2 l p = (geodesicDistance p l.endp / earthRadius) ^ 2) := by
  constructor
  · refine ⟨min_le_left _ _, ?_, ?_⟩
    · exact le_trans (min_le_right _ _) (min_le_left _ _)
    · exact le_trans (min_le_right _ _) (min_le_right _ _)
  · rw [lineDistance2]
    rcases le_total ((crossTrackDistance p l.start l.endp / earthRadius) ^ 2)
      (min ((geodesicDistance p l.start / earthRadius) ^ 2)
        ((geodesicDistance p l.endp / earthRadius) ^ 2)) with h | h
    · left
      exact min_eq_left h
    · rw [min_eq_right h]
      rcases le_total ((geodesicDistance p l.start / earthRadius) ^ 2)
        ((geodesicDistance p l.endp / earthRadius) ^ 2) with h' | h'
      · right; left
        exact min_eq_left h'
      · right; right
        exact min_eq_right h'

lemma arc_point_facts {s e p : Vec3} (hs : s.dot s = 1) (he : e.dot e = 1)
    (h : onMinorArc s e p) :
    ∃ u v : ℝ, 0 ≤ u ∧ 0 ≤ v ∧
      u ^ 2 + v ^ 2 + 2 * u * v * (s.dot e) = 1 ∧
      (∀ d : Vec3, d.dot p = u * (d.dot s) + v * (d.dot e)) ∧
      (s.cross e).dot p = 0 := by
  obtain ⟨u, v, hu, hv, hp, hpp⟩ := h
  refine ⟨u, v, hu, hv, ?_, ?_, ?_⟩
  · have hexp : p.dot p =
        u ^ 2 * (s.dot s) + 2 * u * v * (s.dot e) + v ^ 2 * (e.dot e) := by
      rw [hp]
      simp only [Vec3.dot, Vec3.add, Vec3.smul]
      ring
    rw [hexp, hs, he] at hpp
    linarith
  · intro d
    rw [hp]
    simp only [Vec3.dot, Vec3.add, Vec3.smul]
    ring
  · rw [hp]
    simp only [Vec3.dot, Vec3.cross, Vec3.add, Vec3.smul]
    ring

lemma unit_cross_dot_self {s e : Vec3} (hnd : (s.cross e).dot (s.cross e) ≠ 0) :
    (s.cross e).unit.dot (s.cross e).unit = 1 := by
  have hpos : 0 < (s.cross e).dot (s.cross e) :=
    lt_of_le_of_ne (Vec3.dot_self_nonneg _) (Ne.symm hnd)
  have hLpos : 0 < (s.cross e).norm := Real.sqrt_pos.mpr hpos
  rw [Vec3.unit_eq_smul, Vec3.smul_dot, Vec3.dot_smul,
    show (s.cross e).dot (s.cross e) = (s.cross e).norm ^ 2 from
      (Vec3.norm_sq _).symm]
  field_simp
  ring

/-- The amplitude bound: every point of the arc's great circle (any unit
`p` orthogonal to the arc normal, in particular every arc point) has height
at most `‖d × n̂‖` in absolute value. -/
lemma arc_height_amp_bound {s e d p : Vec3} (hd : d.dot d = 1)
    (hnd : (s.cross e).dot (s.cross e) ≠ 0)
    (hpp : p.dot p = 1) (hperp : (s.cross e).dot p = 0) :
    -((d.cross (s.cross e).unit).norm) ≤ d.dot p ∧
      d.dot p ≤ (d.cross (s.cross e).unit).norm := by
  have hpos : 0 < (s.cross e).dot (s.cross e) :=
    lt_of_le_of_ne (Vec3.dot_self_nonneg _) (Ne.symm hnd)
  have hLpos : 0 < (s.cross e).norm := Real.sqrt_pos.mpr hpos
  have hnn := unit_cross_dot_self hnd
  have hperp' : (s.cross e).unit.dot p = 0 := by
    rw [Vec3.unit_eq_smul, Vec3.smul_dot, hperp, mul_zero]
  have hA2 : (d.cross (s.cross e).unit).norm ^ 2 =
      1 - (d.dot (s.cross e).unit) ^ 2 := by
    rw [Vec3.norm_sq, Vec3.lagrange, hd, hnn]
    ring
  set t := d.dot (s.cross e).unit with ht
  set w : Vec3 := d.add (Vec3.smul (-t) (s.cross e).unit) with hw
  have hwp : w.dot p = d.dot p := by
    rw [hw, Vec3.add_dot, Vec3.smul_dot, hperp']
    ring
  have hww : w.dot w = 1 - t ^ 2 := by
    have hraw : w.dot w =
        d.dot d - 2 * t * (d.dot (s.cross e).unit) +
          t ^ 2 * ((s.cross e).unit.dot (s.cross e).unit) := by
      rw [hw]
      simp only [Vec3.dot, Vec3.add, Vec3.smul]
      ring
    rw [hraw, hd, hnn, ← ht]
    ring
  have hcs := Vec3.dot_sq_le w p
  rw [hpp, mul_one, hww, hwp] at hcs
  have hfin : (d.dot p) ^ 2 ≤ (d.cross (s.cross e).unit).norm ^ 2 := by
    rw [hA2]
    exact hcs
  exact bounds_of_sq_le hfin (Vec3.norm_nonneg' _)

lemma triple_dot_start (s e d : Vec3) :
    ((s.cross e).cross d).dot s =
      (s.dot d) * (e.dot s) - (e.dot d) * (s.dot s) := by
  simp only [Vec3.dot, Vec3.cross]
  ring

lemma triple_dot_end (s e d : Vec3) :
    ((s.cross e).cross d).dot e =
      (s.dot d) * (e.dot e) - (e.dot d) * (s.dot e) := by
  simp only [Vec3.dot, Vec3.cross]
  ring

lemma mul_sign_nonneg {t X Y : ℝ} (ht : 0 < t) (h : t * X * (t * Y) ≥ 0) :
    0 ≤ X * Y := by
  nlinarith [mul_pos ht ht]

lemma mul_sign_neg {t X : ℝ} (ht : 0 < t) (h : t * X < 0) : X < 0 := by
  by_contra hge
  push_neg at hge
  nlinarith [mul_nonneg (le_of_lt ht) hge]

lemma mul_sign_pos {t X : ℝ} (ht : 0 < t) (h : 0 < t * X) : 0 < X := by
  by_contra hge
  push_neg at hge
  nlinarith [mul_nonneg (le_of_lt ht) (neg_nonneg.mpr hge)]

lemma mul_sign_zero {t X : ℝ} (ht : 0 < t) (h : t * X = 0) : X = 0 := by
  rcases mul_eq_zero.mp h with h' | h'
  · exact absurd h' (ne_of_gt ht)
  · exact h'

/-- **C1.**  For every minor-arc `Line` (unit endpoint vectors, degenerate
coincident/antipodal endpoints included) and every unit direction (in
particular each coordinate axis), `extrema(direction)` returns a pair
`(min, max)` with `-1 ≤ min ≤ max ≤ 1` that bounds the height
`direction · p` of every point `p` on the arc. -/
theorem extrema_correct (l : LineM) (d : Vec3)
    (hs : l.start.dot l.start = 1) (he : l.endp.dot l.endp = 1)
    (hd : d.dot d = 1) :
    (-1 ≤ (l.extrema d).1 ∧ (l.extrema d).1 ≤ (l.extrema d).2 ∧
      (l.extrema d).2 ≤ 1) ∧
    ∀ p, onMinorArc l.start l.endp p →
      (l.extrema d).1 ≤ d.dot p ∧ d.dot p ≤ (l.extrema d).2 := by
  have hsq_a : (d.dot l.start) ^ 2 ≤ 1 := by
    have h := Vec3.dot_sq_le d l.start
    rw [hd, hs] at h
    linarith
  have hsq_b : (d.dot l.endp) ^ 2 ≤ 1 := by
    have h := Vec3.dot_sq_le d l.endp
    rw [hd, he] at h
    linarith
  have habs_a := bounds_of_sq_le (A := 1) (by simpa using hsq_a) one_pos.le
  have habs_b := bounds_of_sq_le (A := 1) (by simpa using hsq_b) one_pos.le
  by_cases hdeg : (l.start.cross l.endp).dot (l.start.cross l.endp) = 0
  case pos =>
    -- degenerate arc: coincident or antipodal endpoints
    have hcross0 : l.start.cross l.endp = ⟨0, 0, 0⟩ :=
      Vec3.eq_zero_of_dot_self_eq_zero hdeg
    have hnormal : l.normal = ⟨0, 0, 0⟩ := by
      show (l.start.cross l.endp).unit = _
      rw [hcross0, Vec3.unit_zero]
    have hms0 : (l.normal.cross d).dot l.start = 0 := by
      rw [hnormal, Vec3.cross_zero_left, Vec3.dot_zero_left]
    have hext : l.extrema d =
        (min (d.dot l.start) (d.dot l.endp),
         max (d.dot l.start) (d.dot l.endp)) := by
      unfold LineM.extrema
      rw [if_pos (Or.inr (Or.inl hms0))]
    rw [hext]
    refine ⟨⟨le_min habs_a.1 habs_b.1, min_le_max, max_le habs_a.2 habs_b.2⟩, ?_⟩
    intro p hp
    obtain ⟨u, v, hu, hv, hE, hdot, _⟩ := arc_point_facts hs he hp
    have hlag := Vec3.lagrange l.start l.endp
    rw [hs, he, hdeg] at hlag
    have hc2 : (l.start.dot l.endp) ^ 2 = 1 := by linarith
    have hfact : (l.start.dot l.endp - 1) * (l.start.dot l.endp + 1) = 0 := by
      linear_combination hc2
    rcases mul_eq_zero.mp hfact with hc1 | hcm1
    · -- coincident endpoints
      have hc1' : l.start.dot l.endp = 1 := by linarith
      have hdiff : ((l.start.add (Vec3.smul (-1) l.endp)).dot
          (l.start.add (Vec3.smul (-1) l.endp))) = 0 := by
        have hx : (l.start.add (Vec3.smul (-1) l.endp)).dot
            (l.start.add (Vec3.smul (-1) l.endp)) =
            l.start.dot l.start - 2 * (l.start.dot l.endp) +
              l.endp.dot l.endp := by
          simp only [Vec3.dot, Vec3.add, Vec3.smul]
          ring
        rw [hx, hs, he, hc1']
        ring
      have hz := Vec3.eq_zero_of_dot_self_eq_zero hdiff
      have hex : l.endp.x = l.start.x := by
        have h := congrArg Vec3.x hz
        simp only [Vec3.add, Vec3.smul] at h
        linarith
      have hey : l.endp.y = l.start.y := by
        have h := congrArg Vec3.y hz
        simp only [Vec3.add, Vec3.smul] at h
        linarith
      have hez : l.endp.z = l.start.z := by
        have h := congrArg Vec3.z hz
        simp only [Vec3.add, Vec3.smul] at h
        linarith
      have hba : d.dot l.endp = d.dot l.start := by
        simp only [Vec3.dot, hex, hey, hez]
      have hEE : (u + v - 1) * (u + v + 1) = 0 := by
        linear_combination hE - 2 * u * v * hc1'
      have huv : u + v = 1 := by
        rcases mul_eq_zero.mp hEE with h | h
        · linarith
        · linarith
      rw [hdot d, hba]
      have heq : u * (d.dot l.start) + v * (d.dot l.start) = d.dot l.start := by
        have h : u * (d.dot l.start) + v * (d.dot l.start) =
            (u + v) * (d.dot l.start) := by ring
        rw [h, huv, one_mul]
      rw [heq]
      exact ⟨min_le_left _ _, le_max_left _ _⟩
    · -- antipodal endpoints
      have hcm1' : l.start.dot l.endp = -1 := by linarith
      have hsum0 : ((l.start.add l.endp).dot (l.start.add l.endp)) = 0 := by
        have hx : (l.start.add l.endp).dot (l.start.add l.endp) =
            l.start.dot l.start + 2 * (l.start.dot l.endp) +
              l.endp.dot l.endp := by
          simp only [Vec3.dot, Vec3.add]
          ring
        rw [hx, hs, he, hcm1']
        ring
      have hz := Vec3.eq_zero_of_dot_self_eq_zero hsum0
      have hex : l.endp.x = -l.start.x := by
        have h := congrArg Vec3.x hz
        simp only [Vec3.add] at h
        linarith
      have hey : l.endp.y = -l.start.y := by
        have h := congrArg Vec3.y hz
        simp only [Vec3.add] at h
        linarith
      have hez : l.endp.z = -l.start.z := by
        have h := congrArg Vec3.z hz
        simp only [Vec3.add] at h
        linarith
      have hba : d.dot l.endp = -(d.dot l.start) := by
        simp only [Vec3.dot, hex, hey, hez]
        ring
      have hEE : (u - v - 1) * (u - v + 1) = 0 := by
        linear_combination hE - 2 * u * v * hcm1'
      rw [hdot d, hba]
      rcases mul_eq_zero.mp hEE with h | h
      · have huv : u - v = 1 := by linarith
        have heq : u * (d.dot l.start) + v * -(d.dot l.start) =
            d.dot l.start := by
          have hq : u * (d.dot l.start) + v * -(d.dot l.start) =
              (u - v) * (d.dot l.start) := by ring
          rw [hq, huv, one_mul]
        rw [heq]
        exact ⟨min_le_left _ _, le_max_left _ _⟩
      · have huv : u - v = -1 := by linarith
        have heq : u * (d.dot l.start) + v * -(d.dot l.start) =
            -(d.dot l.start) := by
          have hq : u * (d.dot l.start) + v * -(d.dot l.start) =
              (u - v) * (d.dot l.start) := by ring
          rw [hq, huv]
          ring
        rw [heq]
        exact ⟨min_le_right _ _, le_max_right _ _⟩
  case neg =>
    -- non-degenerate arc
    have hpos : 0 < (l.start.cross l.endp).dot (l.start.cross l.endp) :=
      lt_of_le_of_ne (Vec3.dot_self_nonneg _) (Ne.symm hdeg)
    have hLpos : 0 < (l.start.cross l.endp).norm := Real.sqrt_pos.mpr hpos
    have hLinv : 0 < ((l.start.cross l.endp).norm)⁻¹ := inv_pos.mpr hLpos
    have hlag := Vec3.lagrange l.start l.endp
    rw [hs, he] at hlag
    have hc2 : (l.start.dot l.endp) ^ 2 < 1 := by nlinarith [hpos, hlag]
    have hnu : l.normal = (l.start.cross l.endp).unit := rfl
    have hnormal : (l.start.cross l.endp).unit =
        Vec3.smul ((l.start.cross l.endp).norm)⁻¹ (l.start.cross l.endp) :=
      Vec3.unit_eq_smul _
    have hms : ((l.start.cross l.endp).unit.cross d).dot l.start =
        ((l.start.cross l.endp).norm)⁻¹ *
          ((d.dot l.start) * (l.start.dot l.endp) - d.dot l.endp) := by
      rw [hnormal, Vec3.cross_smul_left, Vec3.smul_dot, triple_dot_start, hs,
        Vec3.dot_comm l.start d, Vec3.dot_comm l.endp l.start,
        Vec3.dot_comm l.endp d]
      ring
    have hme : ((l.start.cross l.endp).unit.cross d).dot l.endp =
        ((l.start.cross l.endp).norm)⁻¹ *
          ((d.dot l.start) - (d.dot l.endp) * (l.start.dot l.endp)) := by
      rw [hnormal, Vec3.cross_smul_left, Vec3.smul_dot, triple_dot_end, he,
        Vec3.dot_comm l.start d, Vec3.dot_comm l.endp d]
      ring
    have hA0 : 0 ≤ (d.cross (l.start.cross l.endp).unit).norm :=
      Vec3.norm_nonneg' _
    have hA2 : (d.cross (l.start.cross l.endp).unit).norm ^ 2 =
        1 - (d.dot (l.start.cross l.endp).unit) ^ 2 := by
      rw [Vec3.norm_sq, Vec3.lagrange, hd, unit_cross_dot_self hdeg]
      ring
    have hA1 : (d.cross (l.start.cross l.endp).unit).norm ≤ 1 := by
      have h2 : (d.cross (l.start.cross l.endp).unit).norm ^ 2 ≤ 1 ^ 2 := by
        rw [hA2]
        nlinarith [sq_nonneg (d.dot (l.start.cross l.endp).unit)]
      exact (bounds_of_sq_le h2 one_pos.le).2
    have hbound : ∀ p, onMinorArc l.start l.endp p →
        -((d.cross (l.start.cross l.endp).unit).norm) ≤ d.dot p ∧
          d.dot p ≤ (d.cross (l.start.cross l.endp).unit).norm := by
      intro p hp
      obtain ⟨u, v, hu, hv, hp', hpp⟩ := hp
      have hperp : (l.start.cross l.endp).dot p = 0 := by
        rw [hp']
        simp only [Vec3.dot, Vec3.cross, Vec3.add, Vec3.smul]
        ring
      exact arc_height_amp_bound hd hdeg hpp hperp
    have hs_on : onMinorArc l.start l.endp l.start :=
      ⟨1, 0, by norm_num, le_refl 0,
       by ext <;> simp [Vec3.add, Vec3.smul], hs⟩
    have he_on : onMinorArc l.start l.endp l.endp :=
      ⟨0, 1, le_refl 0, by norm_num,
       by ext <;> simp [Vec3.add, Vec3.smul], he⟩
    have hsA := hbound _ hs_on
    have heA := hbound _ he_on
    unfold LineM.extrema
    rw [hnu]
    split_ifs with h1 h2
    · -- extrema at the endpoints
      refine ⟨⟨le_min habs_a.1 habs_b.1, min_le_max,
        max_le habs_a.2 habs_b.2⟩, ?_⟩
      intro p hp
      obtain ⟨u, v, hu, hv, hE, hdot, _⟩ := arc_point_facts hs he hp
      rw [hdot d]
      have hminb : min (d.dot l.start) (d.dot l.endp) ≤
          u * (d.dot l.start) + v * (d.dot l.endp) := by
        rcases h1 with hprod | hz | hz
        · rw [hms, hme] at hprod
          have hfac := mul_sign_nonneg hLinv hprod
          rcases mul_nonneg_iff.mp hfac with ⟨h1', h2'⟩ | ⟨h1', h2'⟩
          · exact endpoint_min_bound' hu hv hE hc2.le (by
              linarith [h2', mul_comm (l.start.dot l.endp) (d.dot l.endp)])
          · exact endpoint_min_bound hu hv hE hc2.le (by
              linarith [h1', mul_comm (l.start.dot l.endp) (d.dot l.start)])
        · rw [hms] at hz
          have hzz := mul_sign_zero hLinv hz
          exact endpoint_min_bound hu hv hE hc2.le (by
            linarith [hzz, mul_comm (l.start.dot l.endp) (d.dot l.start)])
        · rw [hme] at hz
          have hzz := mul_sign_zero hLinv hz
          exact endpoint_min_bound' hu hv hE hc2.le (by
            linarith [hzz, mul_comm (l.start.dot l.endp) (d.dot l.endp)])
      have hmaxb : u * (d.dot l.start) + v * (d.dot l.endp) ≤
          max (d.dot l.start) (d.dot l.endp) := by
        rcases h1 with hprod | hz | hz
        · rw [hms, hme] at hprod
          have hfac := mul_sign_nonneg hLinv hprod
          rcases mul_nonneg_iff.mp hfac with ⟨h1', h2'⟩ | ⟨h1', h2'⟩
          · exact endpoint_max_bound hu hv hE hc2.le (by
              linarith [h1', mul_comm (l.start.dot l.endp) (d.dot l.start)])
          · exact endpoint_max_bound' hu hv hE hc2.le (by
              linarith [h2', mul_comm (l.start.dot l.endp) (d.dot l.endp)])
        · rw [hms] at hz
          have hzz := mul_sign_zero hLinv hz
          exact endpoint_max_bound hu hv hE hc2.le (by
            linarith [hzz, mul_comm (l.start.dot l.endp) (d.dot l.start)])
        · rw [hme] at hz
          have hzz := mul_sign_zero hLinv hz
          exact endpoint_max_bound' hu hv hE hc2.le (by
            linarith [hzz, mul_comm (l.start.dot l.endp) (d.dot l.endp)])
      exact ⟨hminb, hmaxb⟩
    · -- interior maximum: max extended to the amplitude
      rw [hms] at h2
      have hx := mul_sign_neg hLinv h2
      refine ⟨⟨le_min habs_a.1 habs_b.1,
        le_trans (min_le_left _ _) hsA.2, hA1⟩, ?_⟩
      intro p hp
      obtain ⟨u, v, hu, hv, hE, hdot, _⟩ := arc_point_facts hs he hp
      constructor
      · rw [hdot d]
        exact endpoint_min_bound hu hv hE hc2.le (by
          linarith [hx, mul_comm (l.start.dot l.endp) (d.dot l.start)])
      · exact (hbound p hp).2
    · -- interior minimum: min extended to minus the amplitude
      push_neg at h1
      have hms_pos :
          0 < ((l.start.cross l.endp).unit.cross d).dot l.start :=
        lt_of_le_of_ne (not_lt.mp h2) (Ne.symm h1.2.1)
      rw [hms] at hms_pos
      have hx := mul_sign_pos hLinv hms_pos
      refine ⟨⟨?_, le_trans hsA.1 (le_max_left _ _),
        max_le habs_a.2 habs_b.2⟩, ?_⟩
      · show -1 ≤ -(d.cross (l.start.cross l.endp).unit).norm
        linarith [hA1]
      intro p hp
      obtain ⟨u, v, hu, hv, hE, hdot, _⟩ := arc_point_facts hs he hp
      constructor
      · exact (hbound p hp).1
      · rw [hdot d]
        exact endpoint_max_bound hu hv hE hc2.le (by
          linarith [hx, mul_comm (l.start.dot l.endp) (d.dot l.start)])

theorem extrema_correct_witness :
    lineXY.start.dot lineXY.start = 1 ∧ lineXY.endp.dot lineXY.endp = 1 ∧
    dirZ.dot dirZ = 1 ∧
    ((-1 ≤ (lineXY.extrema dirZ).1 ∧
      (lineXY.extrema dirZ).1 ≤ (lineXY.extrema dirZ).2 ∧
      (lineXY.extrema dirZ).2 ≤ 1) ∧
     ∀ p, onMinorArc lineXY.start lineXY.endp p →
       (lineXY.extrema dirZ).1 ≤ dirZ.dot p ∧
         dirZ.dot p ≤ (lineXY.extrema dirZ).2) :=
  ⟨by norm_num [lineXY, Vec3.dot], by norm_num [lineXY, Vec3.dot],
   by norm_num [dirZ, Vec3.dot],
   extrema_correct lineXY dirZ (by norm_num [lineXY, Vec3.dot])
     (by norm_num [lineXY, Vec3.dot]) (by norm_num [dirZ, Vec3.dot])⟩

end GeoApp
